import Mathlib

/-!
Verification of the Go package `readerat` (Eun/go-readerat): a shallow embedding of
`reader_at.go` and theorems about it.

Modelling conventions:

* `int64` / `int` counters (`position`, offsets, byte counts) are unbounded integers.
  `position` only grows by the number of bytes the source has delivered, so wrap-around
  would need a stream of 2^63 bytes; no statement below concerns such streams.
* A byte slice `b` passed to `Read`/`ReadAt` is represented by its length; results carry the
  returned count `n` together with the bytes `b[0..n)`.
* `*ring.Ring` (package `container/ring`) is a pointer into a circular list: it is modelled by
  the list of slot values together with the index of the element pointed at.  A `nil`
  interface value is `none`.
* The underlying `io.Reader` is modelled by a script of read events (see `Source`).
-/

namespace Readerat

/-! ## Errors -/

/-- Error values that can come out of the adapter. -/
inductive Error where
  /-- The sentinel `io.EOF`. -/
  | EOF
  /-- Any other failure reported by the underlying reader. -/
  | source (msg : String)
  /-- The value of `errors.New("cannot seek back no buffer present")`. -/
  | noBuffer
  /-- The value of `errors.New("invalid ring buffer item")`. -/
  | invalidItem
  /-- The value of `fmt.Errorf("buffer to small, unable to read from offset %d", off)`. -/
  | tooSmall (off : Int)
  deriving DecidableEq, Repr

/-- The text returned by the `Error()` method of an error value. -/
def Error.message : Error → String
  | .EOF => "EOF"
  | .source msg => msg
  | .noBuffer => "cannot seek back no buffer present"
  | .invalidItem => "invalid ring buffer item"
  | .tooSmall off => "buffer to small, unable to read from offset " ++ toString off

/-! ## The underlying sequential source (`io.Reader`) -/

/-- One step of the script of a source: a chunk of bytes, optionally followed by an error that
is reported together with the last byte of the chunk. -/
structure Event where
  data : List UInt8
  err : Option Error
  deriving DecidableEq, Repr

/-- A deterministic `io.Reader`.  `pending` is what the stream will still deliver;
`delivered` records, in order, every byte handed out by a read that reported no error. -/
structure Source where
  pending : List Event
  delivered : List UInt8
  deriving DecidableEq, Repr

/-- A source that has not been read yet. -/
def Source.fresh (script : List Event) : Source :=
  { pending := script, delivered := [] }

/-- The outcome of one `Read` on the underlying source. -/
structure SourceResult where
  data : List UInt8
  err : Option Error
  next : Source
  deriving DecidableEq, Repr

/-- The method `Read(p)` of the source for `len(p) = size`.  A chunk that fits into `p` is
returned whole together with its error; a longer chunk is returned in part, without error, and
the rest stays pending.  An exhausted source reports `io.EOF`. -/
def Source.Read (s : Source) (size : Nat) : SourceResult :=
  match s.pending with
  | [] => { data := [], err := some Error.EOF, next := s }
  | ev :: rest =>
    if ev.data.length ≤ size then
      { data := ev.data
        err := ev.err
        next :=
          { pending := rest
            delivered := if ev.err = none then s.delivered ++ ev.data else s.delivered } }
    else
      { data := ev.data.take size
        err := none
        next :=
          { pending := { ev with data := ev.data.drop size } :: rest
            delivered := s.delivered ++ ev.data.take size } }

/-- Number of further bytes the source hands out before a read reports an error, when it is
read through buffers that never exceed the number of bytes still wanted. -/
def Source.avail : List Event → Nat
  | [] => 0
  | ev :: rest =>
    match ev.err with
    | none => ev.data.length + Source.avail rest
    | some _ => ev.data.length - 1

/-- Size of a script: every event counts one, every pending byte counts one. -/
def Source.weight : List Event → Nat
  | [] => 0
  | ev :: rest => ev.data.length + 1 + Source.weight rest

/-! ## `container/ring` -/

/-- A pointer to an element of a ring: the slot values of the ring, in allocation order, and
the index of the element pointed at. -/
structure Ring (α : Type) where
  slots : List (Option α)
  idx : Nat
  deriving DecidableEq, Repr

namespace Ring

variable {α : Type}

/-- The function `ring.New(n)`: `nil` for `n <= 0`, otherwise a ring of `n` elements whose values
are all `nil`. -/
def New (n : Int) : Option (Ring α) :=
  if n ≤ 0 then none else some { slots := List.replicate n.toNat none, idx := 0 }

/-- The field `r.Value`. -/
def Value (r : Ring α) : Option α :=
  r.slots.getD r.idx none

/-- The assignment `r.Value = v`. -/
def setValue (r : Ring α) (v : Option α) : Ring α :=
  { r with slots := r.slots.set r.idx v }

/-- The method `r.Next()`. -/
def Next (r : Ring α) : Ring α :=
  { r with idx := if r.idx + 1 < r.slots.length then r.idx + 1 else 0 }

/-- The method `r.Prev()`. -/
def Prev (r : Ring α) : Ring α :=
  { r with idx := if r.idx = 0 then r.slots.length - 1 else r.idx - 1 }

end Ring

/-! ## `reader_at.go` -/

/-- The constant `bufferChunkSize`; no function of the package uses it. -/
def bufferChunkSize : Nat := 1024

/-- The struct `ringItem`. -/
structure ringItem where
  Pos : Int
  Byte : UInt8
  deriving DecidableEq, Repr

/-- The struct `ReaderAt`. -/
structure ReaderAt where
  position : Int
  Reader : Source
  buffer : Option (Ring ringItem)
  deriving DecidableEq, Repr

/-- What a call of `Read` or `ReadAt` leaves behind: the adapter after the call, the returned
count, the bytes `b[0..n)` and the returned error. -/
structure Result where
  r : ReaderAt
  n : Nat
  b : List UInt8
  err : Option Error
  deriving DecidableEq, Repr

/-- The constructor `New`. -/
def New (r : Source) (bufferSize : Int) : ReaderAt :=
  { position := 0, Reader := r, buffer := Ring.New bufferSize }

/-- The loop `for i := 0; i < n; i++` of `Read`: every byte is written into the cursor slot with
its offset, then the cursor and `position` advance. -/
def recordLoop (buffer : Ring ringItem) (position : Int) :
    List UInt8 → Ring ringItem × Int
  | [] => (buffer, position)
  | x :: xs => recordLoop (buffer.setValue (some { Pos := position, Byte := x })).Next (position + 1) xs

/-- The method `(*ReaderAt).Read`. -/
def ReaderAt.Read (r : ReaderAt) (size : Nat) : Result :=
  let s := r.Reader.Read size
  match s.err with
  | some e => { r := { r with Reader := s.next }, n := 0, b := [], err := some e }
  | none =>
    let n := s.data.length
    if n > 0 then
      match r.buffer with
      | none =>
        { r := { r with Reader := s.next, position := r.position + n }
          n := n, b := s.data, err := none }
      | some buffer =>
        let p := recordLoop buffer r.position s.data
        { r := { position := p.2, Reader := s.next, buffer := some p.1 }
          n := n, b := s.data, err := none }
    else
      { r := { r with Reader := s.next }, n := n, b := s.data, err := none }

/-- The loop `for { ... }` of `loopForward`; `fuel` bounds the number of iterations by the number
of elements of the ring. -/
def loopForwardAux {α σ : Type} (f : Ring α → Option α → σ → Bool × σ) (startItem : Ring α) :
    Nat → Ring α → σ → σ
  | 0, _, st => st
  | fuel + 1, item, st =>
    if item.idx = startItem.idx then st
    else
      let c := f item item.Value st
      if !c.1 then c.2 else loopForwardAux f startItem fuel item.Next c.2

/-- The function `loopForward`.  The callback is a closure over mutable variables of the caller:
it takes the captured state and returns it updated together with its boolean result. -/
def loopForward {α σ : Type} (r : Option (Ring α)) (f : Ring α → Option α → σ → Bool × σ)
    (st : σ) : σ :=
  match r with
  | none => st
  | some r =>
    let c := f r r.Value st
    if !c.1 then c.2 else loopForwardAux f r r.slots.length r.Next c.2

/-- The loop `for { ... }` of `loopBackward`. -/
def loopBackwardAux {α σ : Type} (f : Ring α → Option α → σ → Bool × σ) (startItem : Ring α) :
    Nat → Ring α → σ → σ
  | 0, _, st => st
  | fuel + 1, item, st =>
    if item.idx = startItem.idx then st
    else
      let c := f item item.Value st
      if !c.1 then c.2 else loopBackwardAux f startItem fuel item.Prev c.2

/-- The function `loopBackward`. -/
def loopBackward {α σ : Type} (r : Option (Ring α)) (f : Ring α → Option α → σ → Bool × σ)
    (st : σ) : σ :=
  match r with
  | none => st
  | some r =>
    let c := f r r.Value st
    if !c.1 then c.2 else loopBackwardAux f r r.slots.length r.Prev c.2

/-- The closure passed by `readFromRing`; the captured state is `i` and the bytes `b[0..i)`. -/
def copyItem (size : Nat) (off : Int) (_ : Ring ringItem) (v : Option ringItem)
    (st : Nat × List UInt8) : Bool × (Nat × List UInt8) :=
  match v with
  | some item =>
    if item.Pos ≥ off ∧ st.1 < size then (true, (st.1 + 1, st.2 ++ [item.Byte]))
    else (false, st)
  | none => (false, st)

/-- The function `readFromRing` for `len(b) = size`: the count `i` and the bytes `b[0..i)`. -/
def readFromRing (r : Option (Ring ringItem)) (size : Nat) (off : Int) : Nat × List UInt8 :=
  loopForward r (copyItem size off) (0, [])

/-- The closure passed by `readFromBuffer` to both searches; the captured state is `ringPos`. -/
def findItem (off : Int) (rng : Ring ringItem) (v : Option ringItem)
    (ringPos : Option (Ring ringItem)) : Bool × Option (Ring ringItem) :=
  match v with
  | some item => if item.Pos = off then (false, some rng) else (true, ringPos)
  | none => (true, ringPos)

/-- The method `(*ReaderAt).readFromBuffer`.  It uses no field of its receiver but `r.buffer`,
which is not `nil` at its only call site, and it changes nothing: the model takes the ring and
returns count, bytes and error. -/
def readFromBuffer (buffer : Ring ringItem) (size : Nat) (off : Int) :
    Nat × List UInt8 × Option Error :=
  let ref : Option ringItem :=
    match buffer.Value with
    | some item => some item
    | none => buffer.Prev.Value
  match ref with
  | none => (0, [], some Error.invalidItem)
  | some item =>
    if off = item.Pos then
      let p := readFromRing (some buffer) size off
      (p.1, p.2, none)
    else if off < item.Pos then
      match loopBackward (some buffer) (findItem off) none with
      | none => (0, [], some (Error.tooSmall off))
      | some ringPos =>
        let p := readFromRing (some ringPos) size off
        (p.1, p.2, none)
    else
      match loopForward (some buffer) (findItem off) none with
      | none => (0, [], some (Error.tooSmall off))
      | some ringPos =>
        let p := readFromRing (some ringPos) size off
        (p.1, p.2, none)

/-- Size of the scratch buffer of `ioutil.Discard`. -/
def discardChunk : Nat := 8192

/-- The outcome of a copy into `ioutil.Discard`. -/
structure CopyResult where
  r : ReaderAt
  written : Int
  err : Option Error
  deriving DecidableEq, Repr

/-- The read loop of `ioutil.Discard.ReadFrom(io.LimitReader(r, N))`, as `io.Copy` runs it.  The
limited reader reports `io.EOF` once `N <= 0` and otherwise reads with a buffer cut to `N`
bytes; the loop ends at the first error and turns `io.EOF` into success.  `fuel` bounds the
number of iterations. -/
def discardReadFrom : Nat → ReaderAt → Int → Int → CopyResult
  | 0, r, _, written => { r := r, written := written, err := some Error.EOF }
  | fuel + 1, r, N, written =>
    if N ≤ 0 then { r := r, written := written, err := none }
    else
      let res := r.Read (if (discardChunk : Int) > N then N.toNat else discardChunk)
      match res.err with
      | some e =>
        { r := res.r, written := written + res.n
          err := if e = Error.EOF then none else some e }
      | none => discardReadFrom fuel res.r (N - res.n) (written + res.n)

/-- The call `io.CopyN(ioutil.Discard, r, n)`.  Every iteration of the read loop either fails or
shortens the script of the source, so the weight of the script bounds the iterations. -/
def CopyN (r : ReaderAt) (n : Int) : CopyResult :=
  let c := discardReadFrom (Source.weight r.Reader.pending + 1) r n 0
  if c.written = n then { c with written := n, err := none }
  else if c.written < n ∧ c.err = none then { c with err := some Error.EOF }
  else c

/-- The method `(*ReaderAt).ReadAt`. -/
def ReaderAt.ReadAt (r : ReaderAt) (size : Nat) (off : Int) : Result :=
  if off < r.position then
    match r.buffer with
    | none => { r := r, n := 0, b := [], err := some Error.noBuffer }
    | some buffer =>
      let p := readFromBuffer buffer size off
      { r := r, n := p.1, b := p.2.1, err := p.2.2 }
  else if off = r.position then
    r.Read size
  else
    let c := CopyN r (off - r.position)
    match c.err with
    | some e => { r := c.r, n := 0, b := [], err := some e }
    | none => c.r.Read size

/-- The method `(*ReaderAt).Position`. -/
def ReaderAt.Position (r : ReaderAt) : Int :=
  r.position

/-! ## Call sequences -/

/-- A call made by a client of the adapter. -/
inductive Op where
  | Read (size : Nat)
  | ReadAt (size : Nat) (off : Int)
  deriving DecidableEq, Repr

/-- The result of one call. -/
def ReaderAt.call (r : ReaderAt) : Op → Result
  | .Read size => r.Read size
  | .ReadAt size off => r.ReadAt size off

/-- The adapter after one call. -/
def ReaderAt.step (r : ReaderAt) (op : Op) : ReaderAt :=
  (r.call op).r

/-- The adapter after a sequence of calls. -/
def ReaderAt.run (r : ReaderAt) (ops : List Op) : ReaderAt :=
  ops.foldl ReaderAt.step r

/-- What the client sees of a sequence of calls: for every call the returned count, bytes and
error, and the value of `Position()` after it. -/
def ReaderAt.trace (r : ReaderAt) : List Op → List (Nat × List UInt8 × Option Error × Int)
  | [] => []
  | op :: ops =>
    ((r.call op).n, (r.call op).b, (r.call op).err, (r.call op).r.Position)
      :: ReaderAt.trace (r.call op).r ops

/-- No `ReadAt` of the sequence asks for an offset below the `position` at the time of the
call. -/
def ReaderAt.neverBack (r : ReaderAt) : List Op → Bool
  | [] => true
  | .Read size :: ops => ReaderAt.neverBack (r.Read size).r ops
  | .ReadAt size off :: ops =>
    decide (r.position ≤ off) && ReaderAt.neverBack (r.ReadAt size off).r ops

/-- Calls of `ReadAt` at contiguous offsets: every call starts where the previous one ended.  For
every call the returned count, bytes and error. -/
def ReaderAt.seqReadAt (r : ReaderAt) (off : Int) :
    List Nat → List (Nat × List UInt8 × Option Error)
  | [] => []
  | size :: sizes =>
    ((r.ReadAt size off).n, (r.ReadAt size off).b, (r.ReadAt size off).err)
      :: ReaderAt.seqReadAt (r.ReadAt size off).r (off + (r.ReadAt size off).n) sizes

/-- Calls of `Read` in sequence.  For every call the returned count, bytes and error. -/
def ReaderAt.seqRead (r : ReaderAt) : List Nat → List (Nat × List UInt8 × Option Error)
  | [] => []
  | size :: sizes =>
    ((r.Read size).n, (r.Read size).b, (r.Read size).err)
      :: ReaderAt.seqRead (r.Read size).r sizes

/-- The bytes of "Hello World". -/
def helloWorld : List UInt8 := [72, 101, 108, 108, 111, 32, 87, 111, 114, 108, 100]

/-- The script of the stream of the tests: a `bytes.Buffer` holding "Hello World". -/
def helloScript : List Event := [{ data := helloWorld, err := none }]

/-- The stream of the tests, not read yet. -/
def helloSource : Source := Source.fresh helloScript

/-! ## The history invariant -/

/-- The entry recorded for offset `p` of the byte sequence `log`. -/
def entryAt (log : List UInt8) (p : Nat) : Option ringItem :=
  log[p]?.map fun x => { Pos := (p : Int), Byte := x }

/-- What slot `j` of a ring of `n` slots with cursor `cur` holds once the bytes `log` have been
recorded: the slots before the cursor hold the newest bytes, the slots from the cursor on hold
the oldest bytes of the window, or nothing while the ring has not been filled. -/
def expected (n cur : Nat) (log : List UInt8) (j : Nat) : Option ringItem :=
  if j < cur then entryAt log (log.length - cur + j)
  else if n ≤ log.length then entryAt log (log.length - n + (j - cur))
  else none

/-- The ring `rg` is the history of the byte sequence `log`. -/
structure RingInv (rg : Ring ringItem) (log : List UInt8) : Prop where
  idx_lt : rg.idx < rg.slots.length
  fresh : log.length < rg.slots.length → rg.idx = log.length
  slot : ∀ j, j < rg.slots.length →
    rg.slots[j]? = some (expected rg.slots.length rg.idx log j)

/-- The adapter `r` is consistent with the bytes its source has delivered. -/
structure Inv (r : ReaderAt) : Prop where
  pos : r.position = r.Reader.delivered.length
  ring : ∀ rg, r.buffer = some rg → RingInv rg r.Reader.delivered

/-! ## Streams and recorded bytes -/

/-- All bytes a script holds, in order. -/
def Source.stream : List Event → List UInt8
  | [] => []
  | ev :: rest => ev.data ++ Source.stream rest

/-- The adapter `r'` is the adapter `r` after the bytes `xs` have been delivered by the source and
recorded the way `Read` records them: `position` has advanced by their number and, when a ring
is present, each byte has been written into it with its offset. -/
structure Recorded (r r' : ReaderAt) (xs : List UInt8) : Prop where
  pos : r'.position = r.position + xs.length
  delivered : r'.Reader.delivered = r.Reader.delivered ++ xs
  buffer : r'.buffer = r.buffer.map fun rg => (recordLoop rg r.position xs).1

/-- Calling `f` on the elements of a list in order, up to and including the first element on
which it returns `false`. -/
def visitUntil {α σ : Type} (f : Ring α → Option α → σ → Bool × σ) : List (Ring α) → σ → σ
  | [], st => st
  | item :: rest, st =>
    let c := f item item.Value st
    if !c.1 then c.2 else visitUntil f rest c.2

/-- The indices `j, j - 1, ...`, `k` of them. -/
def descending : Nat → Nat → List Nat
  | _, 0 => []
  | j, k + 1 => j :: descending (j - 1) k

/-- The elements of the ring in the order of `Next`, starting from `r`. -/
def forwardOrder {α : Type} (r : Ring α) : List (Ring α) :=
  (List.range' r.idx (r.slots.length - r.idx) ++ List.range' 0 r.idx).map
    fun j => { slots := r.slots, idx := j }

/-- The elements of the ring in the order of `Prev`, starting from `r`. -/
def backwardOrder {α : Type} (r : Ring α) : List (Ring α) :=
  (descending r.idx (r.idx + 1) ++ descending (r.slots.length - 1) (r.slots.length - 1 - r.idx)).map
    fun j => { slots := r.slots, idx := j }

/-- The elements `s, s + 1, s + 2, ...` of the ring of `s`, indices modulo the number `n` of
elements, `n` of them. -/
def forwardSlots {α : Type} (s : Ring α) : List (Ring α) :=
  (List.range s.slots.length).map
    fun d => { slots := s.slots, idx := (s.idx + d) % s.slots.length }

/-- The elements `s, s - 1, s - 2, ...` of the ring of `s`, indices modulo the number `n` of
elements, `n` of them. -/
def backwardSlots {α : Type} (s : Ring α) : List (Ring α) :=
  (List.range s.slots.length).map
    fun d => { slots := s.slots, idx := (s.idx + s.slots.length - d) % s.slots.length }

/-- A callback that always returns `true` and appends the element it is called on to a slice. -/
def noteItem {α : Type} (item : Ring α) (_ : Option α) (seen : List (Ring α)) :
    Bool × List (Ring α) :=
  (true, seen ++ [item])

/-- The closure of the tests of `loopForward` and `loopBackward`: it appends the value to a slice
and returns `true`. -/
def appendValue (_ : Ring Nat) (v : Option Nat) (actual : List Nat) : Bool × List Nat :=
  (true, actual ++ v.toList)

/-- The ring of the tests: 10 elements with the values 0 to 9, moved forward by 5. -/
def testRing : Ring Nat :=
  { slots := (List.range 10).map some, idx := 5 }

/-! ## Looking up the history -/

/-- The slot that holds offset `p` in a ring of `n` slots with cursor `cur` after `len` bytes. -/
def slotOf (n cur len p : Nat) : Nat :=
  if len - cur ≤ p then p - (len - cur) else cur + (p + n - len)

/-- The element `it` holds an entry for offset `off`. -/
def holds (off : Int) (it : Ring ringItem) : Bool :=
  match it.Value with
  | some item => item.Pos == off
  | none => false

/-- A closure that collects the entries of the history: it appends the entry of a written slot
to a slice, passes over a slot that was never written, and returns `true`. -/
def collectLive (_ : Ring ringItem) (v : Option ringItem) (live : List ringItem) :
    Bool × List ringItem :=
  match v with
  | some item => (true, live ++ [item])
  | none => (true, live)

/-- The entries for the last `min(len(log), C)` offsets of the bytes `log`, in ascending order
of their offsets. -/
def liveEntries (C : Nat) (log : List UInt8) : List ringItem :=
  (List.range' (log.length - min log.length C) (min log.length C)).filterMap (entryAt log)

/-! ## Where an error value comes from -/

/-- The error value is one a source hands out, `io.EOF` or a failure of its own, and not one of
the values that `reader_at.go` creates with `errors.New` and `fmt.Errorf`. -/
def Error.ofSource : Error → Bool
  | .EOF => true
  | .source _ => true
  | .noBuffer => false
  | .invalidItem => false
  | .tooSmall _ => false

/-- Every error of the script is an error value of the source. -/
def Source.ownErrors (script : List Event) : Bool :=
  script.all fun ev =>
    match ev.err with
    | none => true
    | some e => e.ofSource

/-! ## Sample inputs -/

/-- A stream that hands out its last three bytes together with `io.EOF`. -/
def eofScript : List Event := [{ data := [1, 2, 3], err := some Error.EOF }]

/-! ## The history invariant is kept by recording -/

theorem entryAt_append_left (log : List UInt8) (x : UInt8) (p : Nat) (h : p < log.length) :
    entryAt (log ++ [x]) p = entryAt log p := by
  unfold entryAt
  rw [List.getElem?_append_left h]

theorem entryAt_append_length (log : List UInt8) (x : UInt8) :
    entryAt (log ++ [x]) log.length = some { Pos := (log.length : Int), Byte := x } := by
  unfold entryAt
  simp

theorem entryAt_of_lt (log : List UInt8) (p : Nat) (h : p < log.length) :
    entryAt log p = some { Pos := (p : Int), Byte := log[p] } := by
  unfold entryAt
  simp [List.getElem?_eq_getElem h]

theorem RingInv.idx_le {rg : Ring ringItem} {log : List UInt8} (h : RingInv rg log) :
    rg.idx ≤ log.length := by
  have h1 := h.idx_lt
  have h2 := h.fresh
  by_cases hc : log.length < rg.slots.length
  · have := h2 hc
    omega
  · omega

theorem RingInv.record {rg : Ring ringItem} {log : List UInt8} (h : RingInv rg log) (x : UInt8) :
    RingInv (rg.setValue (some { Pos := (log.length : Int), Byte := x })).Next (log ++ [x]) := by
  have hlt := h.idx_lt
  have hfr := h.fresh
  have hle := h.idx_le
  refine ⟨?_, ?_, ?_⟩
  · simp only [Ring.Next, Ring.setValue, List.length_set]
    split <;> omega
  · simp only [Ring.Next, Ring.setValue, List.length_set, List.length_append, List.length_singleton]
    intro hc
    have := hfr (by omega)
    split <;> omega
  · intro j hj
    simp only [Ring.Next, Ring.setValue, List.length_set] at hj ⊢
    by_cases hjc : j = rg.idx
    · subst hjc
      rw [List.getElem?_set_self hlt]
      congr 1
      unfold expected
      simp only [List.length_append, List.length_singleton]
      by_cases hn : rg.idx + 1 < rg.slots.length
      · rw [if_pos hn, if_pos (by omega)]
        have : log.length + 1 - (rg.idx + 1) + rg.idx = log.length := by omega
        rw [this, entryAt_append_length]
      · rw [if_neg hn, if_neg (by omega)]
        have hfull : rg.slots.length ≤ log.length + 1 := by
          by_cases hc : log.length < rg.slots.length
          · have := hfr hc
            omega
          · omega
        rw [if_pos hfull]
        have : log.length + 1 - rg.slots.length + (rg.idx - 0) = log.length := by omega
        rw [this, entryAt_append_length]
    · rw [List.getElem?_set_ne (Ne.symm hjc), h.slot j hj]
      congr 1
      unfold expected
      simp only [List.length_append, List.length_singleton]
      by_cases hjl : j < rg.idx
      · rw [if_pos hjl]
        by_cases hn : rg.idx + 1 < rg.slots.length
        · rw [if_pos hn, if_pos (by omega)]
          have : log.length + 1 - (rg.idx + 1) + j = log.length - rg.idx + j := by omega
          rw [this, entryAt_append_left _ _ _ (by omega)]
        · rw [if_neg hn, if_neg (by omega)]
          have hfull : rg.slots.length ≤ log.length + 1 := by
            by_cases hc : log.length < rg.slots.length
            · have := hfr hc
              omega
            · omega
          rw [if_pos hfull]
          have : log.length + 1 - rg.slots.length + (j - 0) = log.length - rg.idx + j := by omega
          rw [this, entryAt_append_left _ _ _ (by omega)]
      · rw [if_neg hjl]
        have hn : rg.idx + 1 < rg.slots.length := by omega
        have a1 : ¬ j < rg.idx + 1 := by omega
        rw [if_pos hn, if_neg a1]
        by_cases hfull : rg.slots.length ≤ log.length
        · have a2 : rg.slots.length ≤ log.length + 1 := by omega
          rw [if_pos hfull, if_pos a2]
          have : log.length + 1 - rg.slots.length + (j - (rg.idx + 1))
              = log.length - rg.slots.length + (j - rg.idx) := by omega
          rw [this, entryAt_append_left _ _ _ (by omega)]
        · have := hfr (by omega)
          have a2 : ¬ rg.slots.length ≤ log.length + 1 := by omega
          rw [if_neg hfull, if_neg a2]

theorem recordLoop_snd (rg : Ring ringItem) (pos : Int) (data : List UInt8) :
    (recordLoop rg pos data).2 = pos + data.length := by
  induction data generalizing rg pos with
  | nil => simp [recordLoop]
  | cons x xs ih =>
    simp only [recordLoop, ih, List.length_cons]
    push_cast
    omega

theorem recordLoop_append (rg : Ring ringItem) (pos : Int) (xs ys : List UInt8) :
    recordLoop rg pos (xs ++ ys)
      = recordLoop (recordLoop rg pos xs).1 (recordLoop rg pos xs).2 ys := by
  induction xs generalizing rg pos with
  | nil => simp [recordLoop]
  | cons x xs ih =>
    rw [List.cons_append]
    simp only [recordLoop]
    exact ih _ _

theorem recordLoop_length (rg : Ring ringItem) (pos : Int) (data : List UInt8) :
    (recordLoop rg pos data).1.slots.length = rg.slots.length := by
  induction data generalizing rg pos with
  | nil => simp [recordLoop]
  | cons x xs ih => simp [recordLoop, ih, Ring.Next, Ring.setValue]

theorem RingInv.recordLoop {rg : Ring ringItem} {log : List UInt8} (h : RingInv rg log)
    (data : List UInt8) :
    RingInv (recordLoop rg (log.length : Int) data).1 (log ++ data) := by
  induction data generalizing rg log with
  | nil => simpa [Readerat.recordLoop] using h
  | cons x xs ih =>
    have h1 := ih (h.record x)
    simp only [Readerat.recordLoop]
    have e : ((log ++ [x]).length : Int) = (log.length : Int) + 1 := by simp
    rw [e] at h1
    simpa using h1

/-! ## Facts about the source and about `Read` -/

theorem Source.Read_length_le (s : Source) (size : Nat) : (s.Read size).data.length ≤ size := by
  unfold Source.Read
  split
  · simp
  · split
    · assumption
    · simp only [List.length_take]
      omega

theorem Source.Read_ok (s : Source) (size : Nat) (h : (s.Read size).err = none) :
    Source.avail (s.Read size).next.pending + (s.Read size).data.length = Source.avail s.pending
    ∧ (0 < size → Source.weight (s.Read size).next.pending < Source.weight s.pending)
    ∧ Source.stream s.pending = (s.Read size).data ++ Source.stream (s.Read size).next.pending
    ∧ (s.Read size).next.delivered = s.delivered ++ (s.Read size).data := by
  unfold Source.Read at h ⊢
  cases hp : s.pending with
  | nil => simp [hp] at h
  | cons ev rest =>
    simp only [hp] at h ⊢
    by_cases hfit : ev.data.length ≤ size
    · simp only [if_pos hfit] at h ⊢
      refine ⟨?_, ?_, ?_, ?_⟩
      · simp only [Source.avail, h]
        omega
      · intro _
        simp only [Source.weight]
        omega
      · simp [Source.stream]
      · simp [h]
    · simp only [if_neg hfit] at h ⊢
      refine ⟨?_, ?_, ?_, ?_⟩
      · cases he : ev.err with
        | none =>
          simp only [Source.avail, he, List.length_drop, List.length_take]
          omega
        | some e =>
          simp only [Source.avail, he, List.length_drop, List.length_take]
          omega
      · intro hs
        simp only [Source.weight, List.length_drop]
        omega
      · simp only [Source.stream]
        rw [← List.append_assoc, List.take_append_drop]
      · trivial

theorem Source.Read_err (s : Source) (size : Nat) (e : Error) (h : (s.Read size).err = some e) :
    (0 < size → Source.avail s.pending < size)
    ∧ (s.Read size).next.delivered = s.delivered := by
  unfold Source.Read at h ⊢
  cases hp : s.pending with
  | nil =>
    simp only [hp]
    exact ⟨fun hs => by simpa [Source.avail] using hs, trivial⟩
  | cons ev rest =>
    simp only [hp] at h ⊢
    by_cases hfit : ev.data.length ≤ size
    · simp only [if_pos hfit] at h ⊢
      refine ⟨?_, ?_⟩
      · intro hs
        simp only [Source.avail, h]
        omega
      · simp [h]
    · simp [if_neg hfit] at h

theorem Recorded.refl (r : ReaderAt) : Recorded r r [] := by
  refine ⟨by simp, by simp, ?_⟩
  cases r.buffer <;> simp [recordLoop]

theorem Recorded.trans {r r1 r2 : ReaderAt} {xs ys : List UInt8}
    (h1 : Recorded r r1 xs) (h2 : Recorded r1 r2 ys) : Recorded r r2 (xs ++ ys) := by
  refine ⟨?_, ?_, ?_⟩
  · rw [h2.pos, h1.pos, List.length_append]
    push_cast
    omega
  · rw [h2.delivered, h1.delivered, List.append_assoc]
  · rw [h2.buffer, h1.buffer, h1.pos]
    cases r.buffer with
    | none => rfl
    | some rg =>
      simp only [Option.map_some']
      rw [recordLoop_append, recordLoop_snd]

theorem Recorded.inv {r r' : ReaderAt} {xs : List UInt8} (h : Recorded r r' xs) (hi : Inv r) :
    Inv r' := by
  refine ⟨?_, ?_⟩
  · rw [h.pos, h.delivered, hi.pos, List.length_append]
    push_cast
    rfl
  · intro rg hrg
    rw [h.buffer] at hrg
    cases hb : r.buffer with
    | none => simp [hb] at hrg
    | some rg0 =>
      simp only [hb, Option.map_some', Option.some.injEq] at hrg
      rw [← hrg, h.delivered, hi.pos]
      exact (hi.ring rg0 hb).recordLoop xs

/-- What `Read` does, whatever the state: the returned count is the number of returned bytes, at
most `len(b)`; the returned bytes have been delivered and recorded; the source has answered one
read; and an error comes with no byte. -/
theorem Read_spec (r : ReaderAt) (size : Nat) :
    (r.Read size).n = (r.Read size).b.length
    ∧ (r.Read size).b.length ≤ size
    ∧ Recorded r (r.Read size).r (r.Read size).b
    ∧ (r.Read size).r.Reader = (r.Reader.Read size).next
    ∧ (r.Read size).err = (r.Reader.Read size).err
    ∧ ((r.Reader.Read size).err = none → (r.Read size).b = (r.Reader.Read size).data)
    ∧ ((r.Reader.Read size).err ≠ none → (r.Read size).b = []) := by
  have hlen := Source.Read_length_le r.Reader size
  unfold ReaderAt.Read
  cases he : (r.Reader.Read size).err with
  | some e =>
    have hd := (Source.Read_err r.Reader size e he).2
    simp only [he]
    refine ⟨?_, ?_, ⟨?_, ?_, ?_⟩, ?_, ?_, ?_, ?_⟩ <;>
      first
        | trivial
        | (cases r.buffer <;> simp [recordLoop, hd])
  | none =>
    have hd := (Source.Read_ok r.Reader size he).2.2.2
    simp only [he]
    by_cases hn : (r.Reader.Read size).data.length > 0
    · simp only [if_pos hn]
      cases hb : r.buffer with
      | none =>
        simp only []
        refine ⟨?_, ?_, ⟨?_, ?_, ?_⟩, ?_, ?_, ?_, ?_⟩ <;>
          first
            | trivial
            | exact hlen
            | exact hd
            | simp [hb]
      | some rg =>
        simp only []
        refine ⟨?_, ?_, ⟨?_, ?_, ?_⟩, ?_, ?_, ?_, ?_⟩ <;>
          first
            | trivial
            | exact hlen
            | exact hd
            | simp [hb, recordLoop_snd]
    · simp only [if_neg hn]
      have h0 : (r.Reader.Read size).data = [] := by
        cases hdat : (r.Reader.Read size).data with
        | nil => rfl
        | cons x xs => simp [hdat] at hn
      refine ⟨?_, ?_, ⟨?_, ?_, ?_⟩, ?_, ?_, ?_, ?_⟩ <;>
        first
          | trivial
          | exact hlen
          | (cases r.buffer <;> simp [recordLoop, hd, h0])

/-! ## Skipping ahead: `io.CopyN` into `ioutil.Discard` -/

theorem discardReadFrom_spec (fuel : Nat) :
    ∀ (r : ReaderAt) (N written : Int), Source.weight r.Reader.pending < fuel →
      ∃ xs : List UInt8,
        Recorded r (discardReadFrom fuel r N written).r xs
        ∧ (discardReadFrom fuel r N written).written = written + xs.length
        ∧ (N ≤ Source.avail r.Reader.pending →
            (discardReadFrom fuel r N written).err = none
            ∧ (xs.length : Int) = max N 0
            ∧ Source.stream r.Reader.pending
                = xs ++ Source.stream (discardReadFrom fuel r N written).r.Reader.pending)
        ∧ ((Source.avail r.Reader.pending : Int) < N →
            (xs.length : Int) < N ∧ xs <+: Source.stream r.Reader.pending) := by
  induction fuel with
  | zero => intro r N written h; omega
  | succ fuel ih =>
    intro r N written hw
    by_cases hN : N ≤ 0
    · refine ⟨[], ?_, ?_, ?_, ?_⟩
      · simp only [discardReadFrom, if_pos hN]
        exact Recorded.refl r
      · simp [discardReadFrom, if_pos hN]
      · intro _
        simp only [discardReadFrom, if_pos hN, List.nil_append, List.length_nil]
        refine ⟨trivial, ?_, trivial⟩
        simp [hN]
      · intro h
        omega
    · obtain ⟨size, hsize, hpos, hle⟩ :
          ∃ size : Nat, (if (discardChunk : Int) > N then N.toNat else discardChunk) = size
            ∧ 0 < size ∧ (size : Int) ≤ N := by
        refine ⟨_, rfl, ?_, ?_⟩
        · split
          · omega
          · decide
        · split
          · omega
          · omega
      obtain ⟨hn, -, hrec, hrd, herr, hbok, hberr⟩ := Read_spec r size
      cases he : (r.Reader.Read size).err with
      | some e =>
        have hb : (r.Read size).b = [] := hberr (by simp [he])
        have he' : (r.Read size).err = some e := by rw [herr, he]
        have hav := (Source.Read_err r.Reader size e he).1 hpos
        refine ⟨[], ?_, ?_, ?_, ?_⟩
        · simp only [discardReadFrom, if_neg hN, hsize, he']
          rw [hb] at hrec
          exact hrec
        · simp [discardReadFrom, if_neg hN, hsize, he', hn, hb]
        · intro h
          omega
        · intro _
          refine ⟨by simp; omega, List.nil_prefix⟩
      | none =>
        have hb : (r.Read size).b = (r.Reader.Read size).data := hbok he
        have he' : (r.Read size).err = none := by rw [herr, he]
        obtain ⟨hav, hwt, hst, -⟩ := Source.Read_ok r.Reader size he
        have hwt := hwt hpos
        have hlen := Source.Read_length_le r.Reader size
        rw [← hrd] at hav hwt hst
        rw [← hb] at hav hst hlen
        obtain ⟨xs, h1, h2, h3, h4⟩ :=
          ih (r.Read size).r (N - (r.Read size).n) (written + (r.Read size).n) (by omega)
        have hunf : discardReadFrom (fuel + 1) r N written
            = discardReadFrom fuel (r.Read size).r (N - (r.Read size).n)
                (written + (r.Read size).n) := by
          simp only [discardReadFrom, if_neg hN, hsize, he']
        rw [hunf]
        refine ⟨(r.Read size).b ++ xs, hrec.trans h1, ?_, ?_, ?_⟩
        · rw [h2, hn, List.length_append]
          push_cast
          omega
        · intro h
          obtain ⟨a, b, c⟩ := h3 (by rw [hn]; omega)
          refine ⟨a, ?_, ?_⟩
          · rw [List.length_append]
            push_cast
            rw [b, hn]
            omega
          · rw [hst, c, List.append_assoc]
        · intro h
          obtain ⟨a, b⟩ := h4 (by rw [hn]; omega)
          refine ⟨?_, ?_⟩
          · rw [List.length_append]
            push_cast
            rw [hn] at a
            omega
          · rw [hst]
            exact (List.prefix_append_right_inj _).mpr b

/-- A skip that the source cannot satisfy: `io.CopyN` reports an error, and the bytes delivered
before the failing read, fewer than `n`, have been recorded. -/
theorem CopyN_fail (r : ReaderAt) (n : Int) (h : (Source.avail r.Reader.pending : Int) < n) :
    (∃ e, (CopyN r n).err = some e)
    ∧ ∃ xs : List UInt8, Recorded r (CopyN r n).r xs ∧ (xs.length : Int) < n
        ∧ xs <+: Source.stream r.Reader.pending := by
  obtain ⟨xs, h1, h2, -, h4⟩ :=
    discardReadFrom_spec (Source.weight r.Reader.pending + 1) r n 0 (by omega)
  obtain ⟨a, b⟩ := h4 h
  have hw : (discardReadFrom (Source.weight r.Reader.pending + 1) r n 0).written ≠ n := by
    rw [h2]
    omega
  have hw2 : (discardReadFrom (Source.weight r.Reader.pending + 1) r n 0).written < n := by
    rw [h2]
    omega
  unfold CopyN
  simp only [if_neg hw]
  cases he : (discardReadFrom (Source.weight r.Reader.pending + 1) r n 0).err with
  | none =>
    simp only [hw2, he, and_self, if_true]
    exact ⟨⟨_, rfl⟩, xs, h1, a, b⟩
  | some e =>
    rw [if_neg (by simp)]
    exact ⟨⟨_, he⟩, xs, h1, a, b⟩

/-! ## A traversal visits one lap of the ring -/

theorem mem_descending {j k x : Nat} (hk : k ≤ j + 1) :
    x ∈ descending j k ↔ (j < x + k ∧ x ≤ j) := by
  induction k generalizing j with
  | zero =>
    simp only [descending, List.not_mem_nil, false_iff]
    omega
  | succ k ih =>
    simp only [descending, List.mem_cons]
    by_cases hk0 : k = 0
    · subst hk0
      simp [descending]
      omega
    · rw [ih (by omega)]
      omega

theorem loopForwardAux_below {α σ : Type} (f : Ring α → Option α → σ → Bool × σ)
    (slots : List (Option α)) (s : Nat) (hs : s < slots.length) :
    ∀ (k j fuel : Nat) (st : σ), j + k = s → k < fuel →
      loopForwardAux f { slots := slots, idx := s } fuel { slots := slots, idx := j } st
        = visitUntil f ((List.range' j k).map fun j => { slots := slots, idx := j }) st := by
  intro k
  induction k with
  | zero =>
    intro j fuel st hj hf
    obtain ⟨fuel, rfl⟩ : ∃ m, fuel = m + 1 := ⟨fuel - 1, by omega⟩
    have : j = s := by omega
    subst this
    simp [loopForwardAux, visitUntil]
  | succ k ih =>
    intro j fuel st hj hf
    obtain ⟨fuel, rfl⟩ : ∃ m, fuel = m + 1 := ⟨fuel - 1, by omega⟩
    have hne : j ≠ s := by omega
    have hnext : (Ring.Next { slots := slots, idx := j } : Ring α)
        = { slots := slots, idx := j + 1 } := by
      simp only [Ring.Next]
      rw [if_pos (by omega)]
    simp only [loopForwardAux, if_neg hne, List.range'_succ, List.map_cons, visitUntil, hnext]
    split
    · rfl
    · exact ih (j + 1) fuel _ (by omega) (by omega)

theorem loopForwardAux_above {α σ : Type} (f : Ring α → Option α → σ → Bool × σ)
    (slots : List (Option α)) (s : Nat) (hs : s < slots.length) :
    ∀ (k j fuel : Nat) (st : σ), j + (k + 1) = slots.length → s < j → k + 1 + s < fuel →
      loopForwardAux f { slots := slots, idx := s } fuel { slots := slots, idx := j } st
        = visitUntil f ((List.range' j (k + 1) ++ List.range' 0 s).map
            fun j => { slots := slots, idx := j }) st := by
  intro k
  induction k with
  | zero =>
    intro j fuel st hj hsj hf
    obtain ⟨fuel, rfl⟩ : ∃ m, fuel = m + 1 := ⟨fuel - 1, by omega⟩
    have hne : j ≠ s := by omega
    have hnext : (Ring.Next { slots := slots, idx := j } : Ring α)
        = { slots := slots, idx := 0 } := by
      simp only [Ring.Next]
      rw [if_neg (by omega)]
    simp only [loopForwardAux, if_neg hne, List.range'_succ, List.range'_zero, List.map_cons,
      List.cons_append, List.nil_append, visitUntil, hnext]
    split
    · rfl
    · exact loopForwardAux_below f slots s hs s 0 fuel _ (by omega) (by omega)
  | succ k ih =>
    intro j fuel st hj hsj hf
    obtain ⟨fuel, rfl⟩ : ∃ m, fuel = m + 1 := ⟨fuel - 1, by omega⟩
    have hne : j ≠ s := by omega
    have hnext : (Ring.Next { slots := slots, idx := j } : Ring α)
        = { slots := slots, idx := j + 1 } := by
      simp only [Ring.Next]
      rw [if_pos (by omega)]
    rw [List.range'_succ]
    simp only [loopForwardAux, if_neg hne, List.map_cons, List.cons_append, visitUntil, hnext]
    split
    · rfl
    · exact ih (j + 1) fuel _ (by omega) (by omega) (by omega)

/-- The function `loopForward` calls `f` on the elements of the ring in the order of `Next`, one
lap at most, and stops after the first `false`. -/
theorem loopForward_eq_visitUntil {α σ : Type} (f : Ring α → Option α → σ → Bool × σ)
    (r : Ring α) (hr : r.idx < r.slots.length) (st : σ) :
    loopForward (some r) f st = visitUntil f (forwardOrder r) st := by
  obtain ⟨slots, s⟩ := r
  simp only at hr
  unfold loopForward forwardOrder
  simp only
  obtain ⟨m, hm⟩ : ∃ m, slots.length - s = m + 1 := ⟨slots.length - s - 1, by omega⟩
  rw [hm, List.range'_succ]
  simp only [List.map_cons, List.cons_append, visitUntil]
  split
  · rfl
  · by_cases hlast : s + 1 < slots.length
    · have hnext : (Ring.Next { slots := slots, idx := s } : Ring α)
          = { slots := slots, idx := s + 1 } := by
        simp only [Ring.Next]
        rw [if_pos hlast]
      obtain ⟨k, hk⟩ : ∃ k, m = k + 1 := ⟨m - 1, by omega⟩
      rw [hnext, hk]
      exact loopForwardAux_above f slots s hr k (s + 1) slots.length _ (by omega) (by omega)
        (by omega)
    · have hnext : (Ring.Next { slots := slots, idx := s } : Ring α)
          = { slots := slots, idx := 0 } := by
        simp only [Ring.Next]
        rw [if_neg hlast]
      have hm0 : m = 0 := by omega
      rw [hnext, hm0]
      simp only [List.range'_zero, List.nil_append]
      exact loopForwardAux_below f slots s hr s 0 slots.length _ (by omega) (by omega)

theorem loopBackwardAux_above {α σ : Type} (f : Ring α → Option α → σ → Bool × σ)
    (slots : List (Option α)) (s : Nat) :
    ∀ (k j fuel : Nat) (st : σ), j = s + k → j < slots.length → k < fuel →
      loopBackwardAux f { slots := slots, idx := s } fuel { slots := slots, idx := j } st
        = visitUntil f ((descending j k).map fun j => { slots := slots, idx := j }) st := by
  intro k
  induction k with
  | zero =>
    intro j fuel st hj hjn hf
    obtain ⟨fuel, rfl⟩ : ∃ m, fuel = m + 1 := ⟨fuel - 1, by omega⟩
    have : j = s := by omega
    subst this
    simp [loopBackwardAux, visitUntil, descending]
  | succ k ih =>
    intro j fuel st hj hjn hf
    obtain ⟨fuel, rfl⟩ : ∃ m, fuel = m + 1 := ⟨fuel - 1, by omega⟩
    have hne : j ≠ s := by omega
    have hprev : (Ring.Prev { slots := slots, idx := j } : Ring α)
        = { slots := slots, idx := j - 1 } := by
      simp only [Ring.Prev]
      rw [if_neg (by omega)]
    simp only [loopBackwardAux, if_neg hne, descending, List.map_cons, visitUntil, hprev]
    split
    · rfl
    · exact ih (j - 1) fuel _ (by omega) (by omega) (by omega)

theorem loopBackwardAux_below {α σ : Type} (f : Ring α → Option α → σ → Bool × σ)
    (slots : List (Option α)) (s : Nat) (hs : s < slots.length) :
    ∀ (j fuel : Nat) (st : σ), j < s → j + 1 + (slots.length - 1 - s) < fuel →
      loopBackwardAux f { slots := slots, idx := s } fuel { slots := slots, idx := j } st
        = visitUntil f ((descending j (j + 1)
            ++ descending (slots.length - 1) (slots.length - 1 - s)).map
            fun j => { slots := slots, idx := j }) st := by
  intro j
  induction j with
  | zero =>
    intro fuel st hj hf
    obtain ⟨fuel, rfl⟩ : ∃ m, fuel = m + 1 := ⟨fuel - 1, by omega⟩
    have hne : 0 ≠ s := by omega
    have hprev : (Ring.Prev { slots := slots, idx := 0 } : Ring α)
        = { slots := slots, idx := slots.length - 1 } := by
      simp [Ring.Prev]
    simp only [loopBackwardAux, if_neg hne, descending, List.map_cons, List.cons_append,
      List.nil_append, visitUntil, hprev]
    split
    · rfl
    · exact loopBackwardAux_above f slots s (slots.length - 1 - s) (slots.length - 1) fuel _
        (by omega) (by omega) (by omega)
  | succ j ih =>
    intro fuel st hj hf
    obtain ⟨fuel, rfl⟩ : ∃ m, fuel = m + 1 := ⟨fuel - 1, by omega⟩
    have hne : j + 1 ≠ s := by omega
    have hprev : (Ring.Prev { slots := slots, idx := j + 1 } : Ring α)
        = { slots := slots, idx := j } := by
      simp only [Ring.Prev]
      rw [if_neg (by omega)]
      rfl
    rw [show descending (j + 1) (j + 1 + 1) = (j + 1) :: descending j (j + 1) from rfl]
    simp only [loopBackwardAux, if_neg hne, List.map_cons, List.cons_append, visitUntil, hprev]
    split
    · rfl
    · exact ih fuel _ (by omega) (by omega)

/-- The function `loopBackward` calls `f` on the elements of the ring in the order of `Prev`, one
lap at most, and stops after the first `false`. -/
theorem loopBackward_eq_visitUntil {α σ : Type} (f : Ring α → Option α → σ → Bool × σ)
    (r : Ring α) (hr : r.idx < r.slots.length) (st : σ) :
    loopBackward (some r) f st = visitUntil f (backwardOrder r) st := by
  obtain ⟨slots, s⟩ := r
  simp only at hr
  unfold loopBackward backwardOrder
  simp only
  rw [show descending s (s + 1) = s :: descending (s - 1) s from rfl]
  simp only [List.map_cons, List.cons_append, visitUntil]
  split
  · rfl
  · by_cases h0 : s = 0
    · subst h0
      have hprev : (Ring.Prev { slots := slots, idx := 0 } : Ring α)
          = { slots := slots, idx := slots.length - 1 } := by
        simp [Ring.Prev]
      rw [hprev]
      simp only [descending, List.nil_append]
      exact loopBackwardAux_above f slots 0 (slots.length - 1 - 0) (slots.length - 1)
        slots.length _ (by omega) (by omega) (by omega)
    · have hprev : (Ring.Prev { slots := slots, idx := s } : Ring α)
          = { slots := slots, idx := s - 1 } := by
        simp only [Ring.Prev]
        rw [if_neg h0]
      obtain ⟨j, rfl⟩ : ∃ j, s = j + 1 := ⟨s - 1, by omega⟩
      rw [hprev]
      exact loopBackwardAux_below f slots (j + 1) hr j slots.length _ (by omega) (by omega)

theorem mem_forwardOrder {α : Type} (r : Ring α) (hr : r.idx < r.slots.length) (x : Ring α) :
    x ∈ forwardOrder r ↔ x.slots = r.slots ∧ x.idx < r.slots.length := by
  obtain ⟨xs, xi⟩ := x
  simp only [forwardOrder, List.mem_map, List.mem_append, List.mem_range', Ring.mk.injEq]
  constructor
  · rintro ⟨j, hj, rfl, rfl⟩
    refine ⟨rfl, ?_⟩
    rcases hj with ⟨i, hi, rfl⟩ | ⟨i, hi, rfl⟩ <;> omega
  · rintro ⟨rfl, h⟩
    refine ⟨xi, ?_, rfl, rfl⟩
    by_cases hc : r.idx ≤ xi
    · exact Or.inl ⟨xi - r.idx, by omega, by omega⟩
    · exact Or.inr ⟨xi, by omega, by omega⟩

theorem mem_backwardOrder {α : Type} (r : Ring α) (hr : r.idx < r.slots.length) (x : Ring α) :
    x ∈ backwardOrder r ↔ x.slots = r.slots ∧ x.idx < r.slots.length := by
  obtain ⟨xs, xi⟩ := x
  simp only [backwardOrder, List.mem_map, List.mem_append, Ring.mk.injEq]
  rw [show (∃ a, (a ∈ descending r.idx (r.idx + 1)
        ∨ a ∈ descending (r.slots.length - 1) (r.slots.length - 1 - r.idx))
        ∧ r.slots = xs ∧ a = xi)
      ↔ ((xi ∈ descending r.idx (r.idx + 1)
        ∨ xi ∈ descending (r.slots.length - 1) (r.slots.length - 1 - r.idx)) ∧ r.slots = xs) from
    ⟨fun ⟨a, h1, h2, h3⟩ => h3 ▸ ⟨h1, h2⟩, fun ⟨h1, h2⟩ => ⟨xi, h1, h2, rfl⟩⟩]
  rw [mem_descending (by omega), mem_descending (by omega)]
  constructor
  · rintro ⟨h, rfl⟩
    exact ⟨rfl, by omega⟩
  · rintro ⟨rfl, h⟩
    exact ⟨by omega, rfl⟩

theorem map_range'_shift {β : Type} (f g : Nat → β) :
    ∀ (k a b : Nat), (∀ i, i < k → g (a + i) = f (b + i)) →
      (List.range' a k).map g = (List.range' b k).map f := by
  intro k
  induction k with
  | zero => intro a b _; rfl
  | succ k ih =>
    intro a b h
    rw [List.range'_succ, List.range'_succ, List.map_cons, List.map_cons]
    congr 1
    · exact h 0 (by omega)
    · apply ih
      intro i hi
      have := h (i + 1) (by omega)
      rw [show a + 1 + i = a + (i + 1) by omega, show b + 1 + i = b + (i + 1) by omega]
      exact this

theorem forwardOrder_eq_forwardSlots {α : Type} (r : Ring α) (hr : r.idx < r.slots.length) :
    forwardOrder r = forwardSlots r := by
  unfold forwardOrder forwardSlots
  have hsplit : List.range r.slots.length
      = List.range' 0 (r.slots.length - r.idx) ++ List.range' (r.slots.length - r.idx) r.idx := by
    rw [List.range_eq_range']
    have := List.range'_append_1 0 (r.slots.length - r.idx) r.idx
    rw [Nat.zero_add] at this
    rw [this]
    congr 1
    omega
  rw [hsplit, List.map_append, List.map_append]
  congr 1
  · apply map_range'_shift
    intro i hi
    simp only [Ring.mk.injEq, true_and]
    rw [Nat.zero_add, Nat.mod_eq_of_lt (by omega)]
  · apply map_range'_shift
    intro i hi
    simp only [Ring.mk.injEq, true_and]
    rw [show r.idx + (r.slots.length - r.idx + i) = r.slots.length + i by omega,
      Nat.add_mod_left, Nat.mod_eq_of_lt (by omega)]
    omega

theorem descending_eq_map (k : Nat) :
    ∀ j : Nat, descending j k = (List.range' 0 k).map fun i => j - i := by
  induction k with
  | zero => intro j; rfl
  | succ k ih =>
    intro j
    rw [List.range'_succ, List.map_cons]
    simp only [descending]
    congr 1
    rw [ih (j - 1)]
    apply map_range'_shift
    intro i _
    omega

theorem backwardOrder_eq_backwardSlots {α : Type} (r : Ring α) (hr : r.idx < r.slots.length) :
    backwardOrder r = backwardSlots r := by
  unfold backwardOrder backwardSlots
  have hsplit : List.range r.slots.length
      = List.range' 0 (r.idx + 1) ++ List.range' (r.idx + 1) (r.slots.length - 1 - r.idx) := by
    rw [List.range_eq_range']
    have := List.range'_append_1 0 (r.idx + 1) (r.slots.length - 1 - r.idx)
    rw [Nat.zero_add] at this
    rw [this]
    congr 1
    omega
  rw [hsplit, List.map_append, List.map_append, descending_eq_map, descending_eq_map,
    List.map_map, List.map_map]
  congr 1
  · apply map_range'_shift
    intro i hi
    simp only [Function.comp, Ring.mk.injEq, true_and]
    rw [show r.idx + r.slots.length - (0 + i) = r.slots.length + (r.idx - i) by omega,
      Nat.add_mod_left, Nat.mod_eq_of_lt (by omega)]
    omega
  · apply map_range'_shift
    intro i hi
    simp only [Function.comp, Ring.mk.injEq, true_and]
    rw [Nat.mod_eq_of_lt (by omega)]
    omega

theorem nodup_descending (k : Nat) : ∀ j : Nat, k ≤ j + 1 → (descending j k).Nodup := by
  induction k with
  | zero => intro j _; exact List.nodup_nil
  | succ k ih =>
    intro j hk
    simp only [descending, List.nodup_cons]
    by_cases hk0 : k = 0
    · subst hk0
      simp [descending]
    · refine ⟨?_, ih (j - 1) (by omega)⟩
      rw [mem_descending (by omega)]
      omega

theorem nodup_forwardOrder {α : Type} (r : Ring α) : (forwardOrder r).Nodup := by
  unfold forwardOrder
  apply List.Nodup.map
  · intro a b h
    simp only [Ring.mk.injEq, true_and] at h
    exact h
  · rw [List.nodup_append]
    refine ⟨List.nodup_range' _ _, List.nodup_range' _ _, ?_⟩
    intro x hx hy
    rw [List.mem_range'_1] at hx hy
    omega

theorem nodup_backwardOrder {α : Type} (r : Ring α) (hr : r.idx < r.slots.length) :
    (backwardOrder r).Nodup := by
  unfold backwardOrder
  apply List.Nodup.map
  · intro a b h
    simp only [Ring.mk.injEq, true_and] at h
    exact h
  · rw [List.nodup_append]
    refine ⟨nodup_descending _ _ (by omega), nodup_descending _ _ (by omega), ?_⟩
    intro x hx hy
    rw [mem_descending (by omega)] at hx hy
    omega

theorem visitUntil_noteItem {α : Type} (L : List (Ring α)) :
    ∀ seen : List (Ring α), visitUntil noteItem L seen = seen ++ L := by
  induction L with
  | nil => intro seen; simp [visitUntil]
  | cons x xs ih =>
    intro seen
    simp only [visitUntil, noteItem, Bool.not_true, Bool.false_eq_true, if_false]
    rw [ih, List.append_assoc]
    rfl

/-! ## Lookups on the history -/

theorem RingInv.value {rg : Ring ringItem} {log : List UInt8} (h : RingInv rg log) (j : Nat)
    (hj : j < rg.slots.length) :
    (Ring.Value { slots := rg.slots, idx := j } : Option ringItem)
      = expected rg.slots.length rg.idx log j := by
  simp only [Ring.Value, List.getD_eq_getElem?_getD, h.slot j hj, Option.getD_some]

theorem RingInv.slotOf_lt {rg : Ring ringItem} {log : List UInt8} (h : RingInv rg log) (p : Nat)
    (h1 : log.length - min log.length rg.slots.length ≤ p) (h2 : p < log.length) :
    slotOf rg.slots.length rg.idx log.length p < rg.slots.length := by
  have a := h.idx_lt
  have b := h.fresh
  have c := h.idx_le
  unfold slotOf
  split
  · omega
  · by_cases hc : log.length < rg.slots.length
    · have := b hc
      omega
    · omega

theorem RingInv.value_slotOf {rg : Ring ringItem} {log : List UInt8} (h : RingInv rg log)
    (p : Nat) (h1 : log.length - min log.length rg.slots.length ≤ p) (h2 : p < log.length) :
    (Ring.Value { slots := rg.slots, idx := slotOf rg.slots.length rg.idx log.length p }
        : Option ringItem)
      = some { Pos := (p : Int), Byte := log[p] } := by
  rw [h.value _ (h.slotOf_lt p h1 h2), ← entryAt_of_lt log p h2]
  have a := h.idx_lt
  have b := h.fresh
  have c := h.idx_le
  unfold slotOf expected
  by_cases hp : log.length - rg.idx ≤ p
  · rw [if_pos hp, if_pos (by omega)]
    congr 1
    omega
  · have hfull : rg.slots.length ≤ log.length := by
      by_cases hc : log.length < rg.slots.length
      · have := b hc
        omega
      · omega
    rw [if_neg hp, if_neg (by omega), if_pos hfull]
    congr 1
    omega

theorem RingInv.expected_some {rg : Ring ringItem} {log : List UInt8} (h : RingInv rg log)
    (j : Nat) (hj : j < rg.slots.length) (item : ringItem)
    (he : expected rg.slots.length rg.idx log j = some item) :
    ∃ p : Nat, log.length - min log.length rg.slots.length ≤ p ∧ p < log.length
      ∧ item.Pos = (p : Int) ∧ j = slotOf rg.slots.length rg.idx log.length p := by
  have a := h.idx_lt
  have b := h.fresh
  have c := h.idx_le
  have key : ∀ q : Nat, entryAt log q = some item → q < log.length ∧ item.Pos = (q : Int) := by
    intro q hq
    unfold entryAt at hq
    by_cases hql : q < log.length
    · rw [List.getElem?_eq_getElem hql] at hq
      simp only [Option.map_some', Option.some.injEq] at hq
      exact ⟨hql, by rw [← hq]⟩
    · rw [List.getElem?_eq_none (by omega)] at hq
      simp at hq
  unfold expected at he
  by_cases hjc : j < rg.idx
  · rw [if_pos hjc] at he
    obtain ⟨k1, k2⟩ := key _ he
    refine ⟨log.length - rg.idx + j, by omega, k1, k2, ?_⟩
    unfold slotOf
    rw [if_pos (by omega)]
    omega
  · rw [if_neg hjc] at he
    by_cases hfull : rg.slots.length ≤ log.length
    · rw [if_pos hfull] at he
      obtain ⟨k1, k2⟩ := key _ he
      refine ⟨log.length - rg.slots.length + (j - rg.idx), by omega, k1, k2, ?_⟩
      unfold slotOf
      rw [if_neg (by omega)]
      omega
    · rw [if_neg hfull] at he
      simp at he

theorem visitUntil_findItem (off : Int) (L : List (Ring ringItem))
    (st : Option (Ring ringItem)) :
    visitUntil (findItem off) L st
      = match L.find? (holds off) with
        | some it => some it
        | none => st := by
  induction L generalizing st with
  | nil => rfl
  | cons x xs ih =>
    simp only [visitUntil, findItem, List.find?, holds]
    cases hv : x.Value with
    | none => simp [ih]
    | some item =>
      by_cases hp : item.Pos = off
      · simp [hp]
      · have hb : (item.Pos == off) = false := by simp [hp]
        simp [hp, hb, ih]

/-- Searching a full lap of the history for `off`, in any order, finds the slot of `off` when
`off` lies in the window of recorded offsets and finds nothing otherwise. -/
theorem RingInv.search {rg : Ring ringItem} {log : List UInt8} (h : RingInv rg log)
    (L : List (Ring ringItem))
    (hL : ∀ x : Ring ringItem, x ∈ L ↔ x.slots = rg.slots ∧ x.idx < rg.slots.length)
    (off : Int) :
    visitUntil (findItem off) L none
      = if ((log.length : Int) - min log.length rg.slots.length ≤ off ∧ off < log.length) then
          some { slots := rg.slots, idx := slotOf rg.slots.length rg.idx log.length off.toNat }
        else none := by
  rw [visitUntil_findItem]
  have sound : ∀ x, x ∈ L → holds off x = true →
      ((log.length : Int) - min log.length rg.slots.length ≤ off ∧ off < log.length)
      ∧ x = { slots := rg.slots, idx := slotOf rg.slots.length rg.idx log.length off.toNat } := by
    intro x hx hh
    obtain ⟨xs, xi⟩ := x
    obtain ⟨hs, hi⟩ := (hL _).mp hx
    simp only at hs hi
    subst hs
    unfold holds at hh
    rw [h.value xi hi] at hh
    cases he : expected rg.slots.length rg.idx log xi with
    | none => simp [he] at hh
    | some item =>
      simp only [he, beq_iff_eq] at hh
      obtain ⟨p, p1, p2, p3, p4⟩ := h.expected_some xi hi item he
      rw [p3] at hh
      subst hh
      refine ⟨by omega, ?_⟩
      simp only [Int.toNat_ofNat]
      rw [← p4]
  by_cases hlive : ((log.length : Int) - min log.length rg.slots.length ≤ off ∧ off < log.length)
  · rw [if_pos hlive]
    obtain ⟨p, rfl⟩ : ∃ p : Nat, off = (p : Int) := ⟨off.toNat, by omega⟩
    have p1 : log.length - min log.length rg.slots.length ≤ p := by omega
    have p2 : p < log.length := by omega
    cases hf : L.find? (holds (p : Int)) with
    | some x =>
      simp only
      have hx := List.mem_of_find?_eq_some hf
      have hh := List.find?_some hf
      rw [(sound x hx hh).2]
    | none =>
      exfalso
      rw [List.find?_eq_none] at hf
      have hmem := (hL (Ring.mk rg.slots (slotOf rg.slots.length rg.idx log.length p))).mpr
        ⟨rfl, h.slotOf_lt p p1 p2⟩
      have := hf _ hmem
      simp [holds, h.value_slotOf p p1 p2] at this
  · rw [if_neg hlive]
    cases hf : L.find? (holds off) with
    | none => rfl
    | some x =>
      exfalso
      exact hlive (sound x (List.mem_of_find?_eq_some hf) (List.find?_some hf)).1

theorem RingInv.slotOf_inj {rg : Ring ringItem} {log : List UInt8} (h : RingInv rg log)
    (p q : Nat) (p1 : log.length - min log.length rg.slots.length ≤ p) (p2 : p < log.length)
    (q1 : log.length - min log.length rg.slots.length ≤ q) (q2 : q < log.length)
    (e : slotOf rg.slots.length rg.idx log.length p = slotOf rg.slots.length rg.idx log.length q) :
    p = q := by
  have a := h.idx_lt
  have b := h.fresh
  have c := h.idx_le
  unfold slotOf at e
  by_cases hc : log.length < rg.slots.length
  · have := b hc
    split_ifs at e <;> omega
  · split_ifs at e <;> omega

theorem RingInv.slotOf_next {rg : Ring ringItem} {log : List UInt8} (h : RingInv rg log)
    (p : Nat) (p1 : log.length - min log.length rg.slots.length ≤ p) (p2 : p < log.length) :
    (Ring.Next { slots := rg.slots, idx := slotOf rg.slots.length rg.idx log.length p }
        : Ring ringItem)
      = { slots := rg.slots
          idx := if p + 1 < log.length then slotOf rg.slots.length rg.idx log.length (p + 1)
            else rg.idx } := by
  have a := h.idx_lt
  have b := h.fresh
  have c := h.idx_le
  simp only [Ring.Next, Ring.mk.injEq, true_and]
  unfold slotOf
  by_cases hc : log.length < rg.slots.length
  · have := b hc
    split_ifs <;> omega
  · split_ifs <;> omega

theorem take_drop_succ (log : List UInt8) (off k : Nat) (hk : off + k < log.length) :
    (log.drop off).take (k + 1) = (log.drop off).take k ++ [log[off + k]] := by
  rw [List.take_succ, List.getElem?_drop, List.getElem?_eq_getElem hk]
  rfl

theorem RingInv.replayAux {rg : Ring ringItem} {log : List UInt8} (h : RingInv rg log)
    (size off : Nat) (h1 : log.length - min log.length rg.slots.length ≤ off)
    (h2 : off < log.length) :
    ∀ (d p fuel : Nat), p + d = log.length → off < p → p - off ≤ size → d < fuel →
      loopForwardAux (copyItem size (off : Int))
          { slots := rg.slots, idx := slotOf rg.slots.length rg.idx log.length off } fuel
          { slots := rg.slots
            idx := if p < log.length then slotOf rg.slots.length rg.idx log.length p
              else rg.idx }
          (p - off, (log.drop off).take (p - off))
        = (min size (log.length - off), (log.drop off).take (min size (log.length - off))) := by
  have a := h.idx_lt
  have b := h.fresh
  have c := h.idx_le
  intro d
  induction d with
  | zero =>
    intro p fuel hp hop hsz hf
    obtain ⟨fuel, rfl⟩ : ∃ m, fuel = m + 1 := ⟨fuel - 1, by omega⟩
    have hm : min size (log.length - off) = p - off := by omega
    rw [hm, if_neg (by omega)]
    simp only [loopForwardAux]
    by_cases hcs : rg.idx = slotOf rg.slots.length rg.idx log.length off
    · rw [if_pos hcs]
    · rw [if_neg hcs, h.value rg.idx a]
      cases he : expected rg.slots.length rg.idx log rg.idx with
      | none => simp [copyItem]
      | some item =>
        obtain ⟨q, q1, q2, q3, q4⟩ := h.expected_some rg.idx a item he
        have hq : q < off := by
          have hne : q ≠ off := by
            intro hqo
            rw [hqo] at q4
            exact hcs q4
          unfold slotOf at q4
          split_ifs at q4 <;> omega
        have hcond : ¬ (item.Pos ≥ (off : Int) ∧ p - off < size) := by
          rw [q3]
          omega
        simp [copyItem, hcond]
  | succ d ih =>
    intro p fuel hp hop hsz hf
    obtain ⟨fuel, rfl⟩ : ∃ m, fuel = m + 1 := ⟨fuel - 1, by omega⟩
    have hpl : p < log.length := by omega
    have p1 : log.length - min log.length rg.slots.length ≤ p := by omega
    have hne : slotOf rg.slots.length rg.idx log.length p
        ≠ slotOf rg.slots.length rg.idx log.length off := by
      intro e
      have := h.slotOf_inj p off p1 hpl h1 h2 e
      omega
    rw [if_pos hpl]
    simp only [loopForwardAux]
    rw [if_neg hne, h.value_slotOf p p1 hpl, h.slotOf_next p p1 hpl]
    by_cases hlt : p - off < size
    · have hcond : ((p : Int) ≥ (off : Int) ∧ p - off < size) := ⟨by omega, hlt⟩
      have hstep := ih (p + 1) fuel (by omega) (by omega) (by omega) (by omega)
      have e1 : p + 1 - off = p - off + 1 := by omega
      have hb2 : off + (p - off) < log.length := by omega
      have e2 : log[p] = log[off + (p - off)] := by
        congr 1
        omega
      rw [e1, take_drop_succ log off (p - off) (by omega), ← e2] at hstep
      simp only [copyItem, hcond, and_self, if_true, Bool.not_true, Bool.false_eq_true, if_false]
      exact hstep
    · have hcond : ¬ ((p : Int) ≥ (off : Int) ∧ p - off < size) := fun hh => hlt hh.2
      have hm : min size (log.length - off) = p - off := by omega
      simp only [copyItem, hcond, if_false, Bool.not_false, if_true, hm]

/-- Replaying from the slot of a recorded offset `off` copies the recorded bytes from `off` on, as
many as fit into the buffer, and stops at the newest one. -/
theorem RingInv.readFromRing {rg : Ring ringItem} {log : List UInt8} (h : RingInv rg log)
    (size off : Nat) (h1 : log.length - min log.length rg.slots.length ≤ off)
    (h2 : off < log.length) :
    readFromRing
        (some { slots := rg.slots, idx := slotOf rg.slots.length rg.idx log.length off })
        size (off : Int)
      = (min size (log.length - off), (log.drop off).take (min size (log.length - off))) := by
  unfold Readerat.readFromRing loopForward
  simp only
  rw [h.value_slotOf off h1 h2, h.slotOf_next off h1 h2]
  by_cases hs : 0 < size
  · have hstep := h.replayAux size off h1 h2 (log.length - (off + 1)) (off + 1) rg.slots.length
      (by omega) (by omega) (by omega) (by omega)
    have e1 : off + 1 - off = 1 := by omega
    have e2 : (log.drop off).take 1 = [log[off]] := by
      have := take_drop_succ log off 0 (by omega)
      simpa using this
    rw [e1, e2] at hstep
    simp only [copyItem, hs, ge_iff_le, le_refl, and_self, if_true, Bool.not_true,
      Bool.false_eq_true, if_false, List.nil_append, Nat.zero_add]
    exact hstep
  · have hs0 : size = 0 := by omega
    subst hs0
    simp [copyItem]

theorem RingInv.searchBackward {rg : Ring ringItem} {log : List UInt8} (h : RingInv rg log)
    (off : Int) :
    loopBackward (some rg) (findItem off) none
      = if ((log.length : Int) - min log.length rg.slots.length ≤ off ∧ off < log.length) then
          some { slots := rg.slots, idx := slotOf rg.slots.length rg.idx log.length off.toNat }
        else none := by
  rw [loopBackward_eq_visitUntil _ rg h.idx_lt,
    h.search (backwardOrder rg) (fun x => mem_backwardOrder rg h.idx_lt x) off]

theorem RingInv.searchForward {rg : Ring ringItem} {log : List UInt8} (h : RingInv rg log)
    (off : Int) :
    loopForward (some rg) (findItem off) none
      = if ((log.length : Int) - min log.length rg.slots.length ≤ off ∧ off < log.length) then
          some { slots := rg.slots, idx := slotOf rg.slots.length rg.idx log.length off.toNat }
        else none := by
  rw [loopForward_eq_visitUntil _ rg h.idx_lt,
    h.search (forwardOrder rg) (fun x => mem_forwardOrder rg h.idx_lt x) off]

theorem RingInv.replay {rg : Ring ringItem} {log : List UInt8} (h : RingInv rg log)
    (size : Nat) (off : Int)
    (h1 : (log.length : Int) - min log.length rg.slots.length ≤ off) (h2 : off < log.length) :
    Readerat.readFromRing
        (some { slots := rg.slots, idx := slotOf rg.slots.length rg.idx log.length off.toNat })
        size off
      = (min size (log.length - off.toNat),
          (log.drop off.toNat).take (min size (log.length - off.toNat))) := by
  have := h.readFromRing size off.toNat (by omega) (by omega)
  rw [show ((off.toNat : Nat) : Int) = off by omega] at this
  exact this

/-- What `readFromBuffer` returns on the history of `log` for an offset below `position`. -/
theorem RingInv.readFromBuffer {rg : Ring ringItem} {log : List UInt8} (h : RingInv rg log)
    (size : Nat) (off : Int) (hoff : off < log.length) :
    Readerat.readFromBuffer rg size off
      = if log.length = 0 then (0, [], some Error.invalidItem)
        else if off < (log.length : Int) - min log.length rg.slots.length then
          (0, [], some (Error.tooSmall off))
        else if log.length < rg.slots.length ∧ off = (log.length : Int) - 1 then (0, [], none)
        else (min size (log.length - off.toNat),
          (log.drop off.toNat).take (min size (log.length - off.toNat)), none) := by
  have a := h.idx_lt
  have b := h.fresh
  have c := h.idx_le
  have hv : rg.Value = expected rg.slots.length rg.idx log rg.idx := h.value rg.idx a
  by_cases hfull : rg.slots.length ≤ log.length
  · -- the ring has been filled: the cursor slot holds the oldest offset
    have hlt : log.length - rg.slots.length < log.length := by omega
    have hcur : rg.Value
        = some { Pos := ((log.length - rg.slots.length : Nat) : Int)
                 Byte := log[log.length - rg.slots.length] } := by
      rw [hv, ← entryAt_of_lt log _ hlt]
      unfold expected
      rw [if_neg (by omega), if_pos hfull]
      congr 1
      omega
    have hslot : slotOf rg.slots.length rg.idx log.length (log.length - rg.slots.length)
        = rg.idx := by
      unfold slotOf
      rw [if_neg (by omega)]
      omega
    rw [if_neg (by omega)]
    unfold Readerat.readFromBuffer
    simp only [hcur]
    by_cases he : off = ((log.length - rg.slots.length : Nat) : Int)
    · rw [if_pos he, if_neg (by omega), if_neg (by omega)]
      have hr := h.replay size off (by omega) hoff
      rw [show off.toNat = log.length - rg.slots.length by omega, hslot] at hr
      rw [show off.toNat = log.length - rg.slots.length by omega]
      rw [show (some rg : Option (Ring ringItem))
        = some { slots := rg.slots, idx := rg.idx } from rfl, hr]
    · rw [if_neg he]
      by_cases hl : off < ((log.length - rg.slots.length : Nat) : Int)
      · rw [if_pos hl, h.searchBackward off, if_neg (by omega), if_pos (by omega)]
      · rw [if_neg hl, h.searchForward off, if_pos ⟨by omega, hoff⟩, if_neg (by omega),
          if_neg (by omega)]
        simp only
        rw [h.replay size off (by omega) hoff]
  · -- the ring has not been filled: the cursor slot is empty
    have hidx : rg.idx = log.length := b (by omega)
    have hcur : rg.Value = none := by
      rw [hv]
      unfold expected
      rw [if_neg (by omega), if_neg hfull]
    unfold Readerat.readFromBuffer
    simp only [hcur]
    by_cases h0 : log.length = 0
    · have hprev : rg.Prev.Value = none := by
        have := h.value (rg.slots.length - 1) (by omega)
        have e : rg.Prev = { slots := rg.slots, idx := rg.slots.length - 1 } := by
          simp only [Ring.Prev]
          rw [if_pos (by omega)]
        rw [e, this]
        unfold expected
        rw [if_neg (by omega), if_neg hfull]
      rw [if_pos h0]
      simp only [hprev]
    · have hlt : log.length - 1 < log.length := by omega
      have hprev : rg.Prev.Value
          = some { Pos := ((log.length - 1 : Nat) : Int), Byte := log[log.length - 1] } := by
        have := h.value (rg.idx - 1) (by omega)
        have e : rg.Prev = { slots := rg.slots, idx := rg.idx - 1 } := by
          simp only [Ring.Prev]
          rw [if_neg (by omega)]
        rw [e, this, ← entryAt_of_lt log _ hlt]
        unfold expected
        rw [if_pos (by omega)]
        congr 1
        omega
      rw [if_neg h0]
      simp only [hprev]
      by_cases he : off = ((log.length - 1 : Nat) : Int)
      · rw [if_pos he, if_neg (by omega), if_pos ⟨by omega, by omega⟩]
        unfold Readerat.readFromRing loopForward
        simp only [hcur, copyItem]
        rfl
      · rw [if_neg he, if_pos (by omega), h.searchBackward off]
        by_cases hneg : off < 0
        · rw [if_neg (by omega), if_pos (by omega)]
        · rw [if_pos ⟨by omega, hoff⟩, if_neg (by omega), if_neg (by omega)]
          simp only
          rw [h.replay size off (by omega) hoff]

/-! ## Reachable states -/

theorem CopyN_state (r : ReaderAt) (n : Int) :
    (CopyN r n).r = (discardReadFrom (Source.weight r.Reader.pending + 1) r n 0).r := by
  unfold CopyN
  simp only
  split_ifs <;> rfl

theorem CopyN_recorded (r : ReaderAt) (n : Int) :
    ∃ xs : List UInt8, Recorded r (CopyN r n).r xs := by
  obtain ⟨xs, hx, -⟩ :=
    discardReadFrom_spec (Source.weight r.Reader.pending + 1) r n 0 (by omega)
  rw [CopyN_state]
  exact ⟨xs, hx⟩

theorem ReadAt_past (r : ReaderAt) (size : Nat) (off : Int) (h : off < r.position) :
    (r.ReadAt size off).r = r := by
  unfold ReaderAt.ReadAt
  rw [if_pos h]
  cases r.buffer <;> rfl

theorem ReadAt_present (r : ReaderAt) (size : Nat) (off : Int) (h : off = r.position) :
    r.ReadAt size off = r.Read size := by
  unfold ReaderAt.ReadAt
  rw [if_neg (by omega), if_pos h]

theorem ReadAt_recorded (r : ReaderAt) (size : Nat) (off : Int) :
    ∃ xs : List UInt8, Recorded r (r.ReadAt size off).r xs := by
  by_cases h1 : off < r.position
  · rw [ReadAt_past r size off h1]
    exact ⟨[], Recorded.refl r⟩
  · by_cases h2 : off = r.position
    · rw [ReadAt_present r size off h2]
      exact ⟨_, (Read_spec r size).2.2.1⟩
    · obtain ⟨xs, hx⟩ := CopyN_recorded r (off - r.position)
      unfold ReaderAt.ReadAt
      rw [if_neg h1, if_neg h2]
      simp only
      cases he : (CopyN r (off - r.position)).err with
      | some e => exact ⟨xs, hx⟩
      | none => exact ⟨_, hx.trans (Read_spec _ size).2.2.1⟩

theorem run_recorded (r : ReaderAt) (ops : List Op) :
    ∃ xs : List UInt8, Recorded r (r.run ops) xs := by
  induction ops generalizing r with
  | nil => exact ⟨[], Recorded.refl r⟩
  | cons op ops ih =>
    obtain ⟨ys, hy⟩ := ih (r.step op)
    have hstep : ∃ xs : List UInt8, Recorded r (r.step op) xs := by
      cases op with
      | Read size => exact ⟨_, (Read_spec r size).2.2.1⟩
      | ReadAt size off => exact ReadAt_recorded r size off
    obtain ⟨xs, hx⟩ := hstep
    exact ⟨xs ++ ys, hx.trans hy⟩

theorem New_inv (script : List Event) (C : Int) : Inv (New (Source.fresh script) C) := by
  refine ⟨rfl, ?_⟩
  intro rg hrg
  simp only [New, Ring.New] at hrg
  by_cases hC : C ≤ 0
  · simp [hC] at hrg
  · simp only [if_neg hC, Option.some.injEq] at hrg
    subst hrg
    refine ⟨?_, ?_, ?_⟩
    · simp only [List.length_replicate]
      omega
    · intro _
      rfl
    · intro j hj
      simp only [List.length_replicate] at hj
      simp only [New, Source.fresh, List.length_replicate, expected, List.length_nil]
      rw [List.getElem?_replicate_of_lt hj, if_neg (by omega), if_neg (by omega)]

/-- Every state reached from `New` by calls of `Read` and `ReadAt` is consistent: `position`
counts the delivered bytes and the ring, present exactly for a positive capacity and then of
that many slots, is the history of the delivered bytes. -/
theorem reachable_inv (script : List Event) (C : Int) (ops : List Op) :
    Inv ((New (Source.fresh script) C).run ops)
    ∧ (C ≤ 0 → ((New (Source.fresh script) C).run ops).buffer = none)
    ∧ (0 < C → ∃ rg, ((New (Source.fresh script) C).run ops).buffer = some rg
        ∧ (rg.slots.length : Int) = C) := by
  obtain ⟨xs, hx⟩ := run_recorded (New (Source.fresh script) C) ops
  refine ⟨hx.inv (New_inv script C), ?_, ?_⟩
  · intro hC
    rw [hx.buffer]
    simp [New, Ring.New, hC]
  · intro hC
    rw [hx.buffer]
    simp only [New, Ring.New, if_neg (by omega : ¬ C ≤ 0), Option.map_some']
    refine ⟨_, rfl, ?_⟩
    rw [recordLoop_length]
    simp only [List.length_replicate]
    omega

/-- A lookup into the past on a consistent adapter with a ring, in terms of the delivered
bytes. -/
theorem ReadAt_history (r : ReaderAt) (rg : Ring ringItem) (hb : r.buffer = some rg)
    (size : Nat) (off : Int) (hoff : off < r.position) :
    r.ReadAt size off
      = { r := r
          n := (readFromBuffer rg size off).1
          b := (readFromBuffer rg size off).2.1
          err := (readFromBuffer rg size off).2.2 } := by
  unfold ReaderAt.ReadAt
  rw [if_pos hoff]
  simp only [hb]

/-! ## The state a successful skip leaves behind -/

theorem Read_sim (r r' : ReaderAt) (hp : r.position = r'.position) (hR : r.Reader = r'.Reader)
    (size : Nat) :
    (r.Read size).n = (r'.Read size).n
    ∧ (r.Read size).b = (r'.Read size).b
    ∧ (r.Read size).err = (r'.Read size).err
    ∧ (r.Read size).r.position = (r'.Read size).r.position
    ∧ (r.Read size).r.Reader = (r'.Read size).r.Reader := by
  obtain ⟨hn, -, hrec, hrd, herr, hbok, hberr⟩ := Read_spec r size
  obtain ⟨hn', -, hrec', hrd', herr', hbok', hberr'⟩ := Read_spec r' size
  rw [← hR] at hrd' herr' hbok' hberr'
  have hb : (r.Read size).b = (r'.Read size).b := by
    cases he : (r.Reader.Read size).err with
    | none => rw [hbok he, hbok' he]
    | some e => rw [hberr (by simp [he]), hberr' (by simp [he])]
  refine ⟨by rw [hn, hn', hb], hb, by rw [herr, herr'], ?_, by rw [hrd, hrd']⟩
  rw [hrec.pos, hrec'.pos, hp, hb]

theorem discardReadFrom_sim (fuel : Nat) :
    ∀ (r r' : ReaderAt) (N written : Int), r.position = r'.position → r.Reader = r'.Reader →
      (discardReadFrom fuel r N written).written = (discardReadFrom fuel r' N written).written
      ∧ (discardReadFrom fuel r N written).err = (discardReadFrom fuel r' N written).err
      ∧ (discardReadFrom fuel r N written).r.position
          = (discardReadFrom fuel r' N written).r.position
      ∧ (discardReadFrom fuel r N written).r.Reader
          = (discardReadFrom fuel r' N written).r.Reader := by
  induction fuel with
  | zero =>
    intro r r' N written hp hR
    exact ⟨rfl, rfl, hp, hR⟩
  | succ fuel ih =>
    intro r r' N written hp hR
    by_cases hN : N ≤ 0
    · simp only [discardReadFrom, if_pos hN]
      exact ⟨trivial, trivial, hp, hR⟩
    · obtain ⟨h1, -, h3, h4, h5⟩ :=
        Read_sim r r' hp hR (if (discardChunk : Int) > N then N.toNat else discardChunk)
      cases he : (r.Read (if (discardChunk : Int) > N then N.toNat else discardChunk)).err with
      | some e =>
        have he' := h3
        rw [he] at he'
        simp only [discardReadFrom, if_neg hN, he, ← he', ← h1]
        exact ⟨trivial, trivial, h4, h5⟩
      | none =>
        have he' := h3
        rw [he] at he'
        simp only [discardReadFrom, if_neg hN, he, ← he', ← h1]
        exact ih _ _ _ _ h4 h5

theorem CopyN_sim (r r' : ReaderAt) (n : Int) (hp : r.position = r'.position)
    (hR : r.Reader = r'.Reader) :
    (CopyN r n).err = (CopyN r' n).err
    ∧ (CopyN r n).r.position = (CopyN r' n).r.position
    ∧ (CopyN r n).r.Reader = (CopyN r' n).r.Reader := by
  obtain ⟨h1, h2, h3, h4⟩ :=
    discardReadFrom_sim (Source.weight r.Reader.pending + 1) r r' n 0 hp hR
  rw [CopyN_state, CopyN_state, ← hR]
  refine ⟨?_, h3, h4⟩
  unfold CopyN
  simp only
  rw [← hR, ← h1, ← h2]
  split_ifs <;> first | rfl | exact h2

theorem ReadAt_sim (r r' : ReaderAt) (hp : r.position = r'.position) (hR : r.Reader = r'.Reader)
    (size : Nat) (off : Int) (hoff : r.position ≤ off) :
    (r.ReadAt size off).n = (r'.ReadAt size off).n
    ∧ (r.ReadAt size off).b = (r'.ReadAt size off).b
    ∧ (r.ReadAt size off).err = (r'.ReadAt size off).err
    ∧ (r.ReadAt size off).r.position = (r'.ReadAt size off).r.position
    ∧ (r.ReadAt size off).r.Reader = (r'.ReadAt size off).r.Reader := by
  by_cases h2 : off = r.position
  · rw [ReadAt_present r size off h2, ReadAt_present r' size off (by omega)]
    exact Read_sim r r' hp hR size
  · obtain ⟨h3, h4, h5⟩ := CopyN_sim r r' (off - r.position) hp hR
    unfold ReaderAt.ReadAt
    rw [if_neg (by omega), if_neg h2, if_neg (by omega), if_neg (by omega), ← hp]
    simp only
    rw [← h3]
    cases he : (CopyN r (off - r.position)).err with
    | some e => exact ⟨rfl, rfl, rfl, h4, h5⟩
    | none => exact Read_sim _ _ h4 h5 size

theorem trace_sim (ops : List Op) :
    ∀ (r r' : ReaderAt), r.position = r'.position → r.Reader = r'.Reader →
      r.neverBack ops = true → r.trace ops = r'.trace ops := by
  induction ops with
  | nil => intro r r' _ _ _; rfl
  | cons op ops ih =>
    intro r r' hp hR hnb
    cases op with
    | Read size =>
      obtain ⟨h1, h2, h3, h4, h5⟩ := Read_sim r r' hp hR size
      simp only [ReaderAt.neverBack] at hnb
      simp only [ReaderAt.trace, ReaderAt.call, ReaderAt.Position]
      rw [h1, h2, h3, h4, ih _ _ h4 h5 hnb]
    | ReadAt size off =>
      simp only [ReaderAt.neverBack, Bool.and_eq_true, decide_eq_true_eq] at hnb
      obtain ⟨h1, h2, h3, h4, h5⟩ := ReadAt_sim r r' hp hR size off hnb.1
      simp only [ReaderAt.trace, ReaderAt.call, ReaderAt.Position]
      rw [h1, h2, h3, h4, ih _ _ h4 h5 hnb.2]

/-! ## Contiguous reads -/

theorem seqReadAt_eq_seqRead (sizes : List Nat) :
    ∀ (r : ReaderAt) (off : Int), off = r.position → r.seqReadAt off sizes = r.seqRead sizes := by
  induction sizes with
  | nil => intro r off _; rfl
  | cons size sizes ih =>
    intro r off hoff
    obtain ⟨hn, -, hrec, -⟩ := Read_spec r size
    simp only [ReaderAt.seqReadAt, ReaderAt.seqRead]
    rw [ReadAt_present r size off hoff]
    rw [ih (r.Read size).r (off + (r.Read size).n) (by rw [hrec.pos, hn, hoff])]

theorem seqRead_sim (sizes : List Nat) :
    ∀ (r r' : ReaderAt), r.position = r'.position → r.Reader = r'.Reader →
      r.seqRead sizes = r'.seqRead sizes := by
  induction sizes with
  | nil => intro r r' _ _; rfl
  | cons size sizes ih =>
    intro r r' hp hR
    obtain ⟨h1, h2, h3, h4, h5⟩ := Read_sim r r' hp hR size
    simp only [ReaderAt.seqRead]
    rw [h1, h2, h3, ih _ _ h4 h5]

/-! ## Replay while nothing has been evicted -/

/-- For a capacity `C >= 1`, in every reachable state with `0 < position <= C`, a `ReadAt(b, off)`
with `0 <= off < position` returns no error and the `min(len(b), position - off)` bytes
delivered from offset `off` on, provided `off` is not `position - 1` or the ring has just been
filled (`position = C`). -/
theorem ReadAt_before_eviction (C : Nat) (hC : 1 ≤ C) (script : List Event)
    (ops : List Op) (size : Nat) (off : Int)
    (hpos : ((New (Source.fresh script) C).run ops).position ≤ C)
    (hlo : 0 ≤ off)
    (hhi : off < ((New (Source.fresh script) C).run ops).position)
    (hcase : off ≠ ((New (Source.fresh script) C).run ops).position - 1
      ∨ ((New (Source.fresh script) C).run ops).position = C) :
    (((New (Source.fresh script) C).run ops).ReadAt size off).err = none
    ∧ ((((New (Source.fresh script) C).run ops).ReadAt size off).n : Int)
        = min (size : Int) (((New (Source.fresh script) C).run ops).position - off)
    ∧ (((New (Source.fresh script) C).run ops).ReadAt size off).b
        = (((New (Source.fresh script) C).run ops).Reader.delivered.drop off.toNat).take
            (((New (Source.fresh script) C).run ops).ReadAt size off).n := by
  obtain ⟨hi, -, hrg⟩ := reachable_inv script C ops
  obtain ⟨rg, hb, hlen⟩ := hrg (by omega)
  generalize (New (Source.fresh script) C).run ops = r at *
  have hr := hi.ring rg hb
  have hpos := hi.pos
  rw [ReadAt_history r rg hb size off hhi,
    hr.readFromBuffer size off (by omega), if_neg (by omega), if_neg (by omega),
    if_neg (by omega)]
  simp only
  refine ⟨trivial, by omega, trivial⟩

/-- In a reachable state with a ring that has not been filled (`0 < position < C`), a `ReadAt`
at `off = position - 1` returns 0 bytes and no error, whatever the length of the buffer. -/
theorem ReadAt_last_byte_unfilled (C : Nat) (script : List Event)
    (ops : List Op) (size : Nat)
    (hpos : 0 < ((New (Source.fresh script) C).run ops).position)
    (hC : ((New (Source.fresh script) C).run ops).position < C) :
    (((New (Source.fresh script) C).run ops).ReadAt size
        (((New (Source.fresh script) C).run ops).position - 1)).n = 0
    ∧ (((New (Source.fresh script) C).run ops).ReadAt size
        (((New (Source.fresh script) C).run ops).position - 1)).err = none := by
  obtain ⟨hi, -, hrg⟩ := reachable_inv script C ops
  obtain ⟨rg, hb, hlen⟩ := hrg (by omega)
  generalize (New (Source.fresh script) C).run ops = r at *
  have hr := hi.ring rg hb
  have hpos := hi.pos
  rw [ReadAt_history r rg hb size _ (by omega),
    hr.readFromBuffer size _ (by omega), if_neg (by omega), if_neg (by omega),
    if_pos ⟨by omega, by omega⟩]
  exact ⟨rfl, rfl⟩

/-! ## The entries of the history, in the order of a forward lap -/

theorem filterMap_range'_shift {β : Type} (f g : Nat → Option β) (k a b : Nat)
    (h : ∀ i, i < k → g (a + i) = f (b + i)) :
    (List.range' a k).filterMap g = (List.range' b k).filterMap f := by
  have e : ∀ (u : Nat → Option β) (l : List Nat), l.filterMap u = (l.map u).filterMap id := by
    intro u l
    rw [List.filterMap_map]
    rfl
  rw [e g, e f, map_range'_shift f g k a b h]

theorem entries_pos (log : List UInt8) :
    ∀ (k a : Nat), a + k ≤ log.length →
      ((List.range' a k).filterMap (entryAt log)).map (fun item => item.Pos)
        = (List.range' a k).map (fun p : Nat => (p : Int)) := by
  intro k
  induction k with
  | zero => intro a _; rfl
  | succ k ih =>
    intro a h
    rw [List.range'_succ, List.filterMap_cons, entryAt_of_lt log a (by omega)]
    simp only [List.map_cons]
    rw [ih (a + 1) (by omega)]

theorem entries_byte (log : List UInt8) (l : List Nat) (item : ringItem)
    (h : item ∈ l.filterMap (entryAt log)) :
    log[item.Pos.toNat]? = some item.Byte := by
  rw [List.mem_filterMap] at h
  obtain ⟨p, -, hp⟩ := h
  unfold entryAt at hp
  cases hq : log[p]? with
  | none => simp [hq] at hp
  | some x =>
    simp only [hq, Option.map_some', Option.some.injEq] at hp
    rw [← hp]
    simpa using hq

theorem visitUntil_collectLive (L : List (Ring ringItem)) :
    ∀ live : List ringItem,
      visitUntil collectLive L live = live ++ L.filterMap Ring.Value := by
  induction L with
  | nil => intro live; simp [visitUntil]
  | cons x xs ih =>
    intro live
    simp only [visitUntil, collectLive, List.filterMap_cons]
    cases hv : x.Value with
    | none =>
      simp only [Bool.not_true, Bool.false_eq_true, if_false]
      exact ih live
    | some item =>
      simp only [Bool.not_true, Bool.false_eq_true, if_false]
      rw [ih, List.append_assoc]
      rfl

/-- A forward lap from the cursor meets the entries of the window in ascending order of their
offsets. -/
theorem RingInv.forward_entries {rg : Ring ringItem} {log : List UInt8} (h : RingInv rg log) :
    (forwardOrder rg).filterMap Ring.Value = liveEntries rg.slots.length log := by
  have a := h.idx_lt
  have b := h.fresh
  have c := h.idx_le
  unfold forwardOrder liveEntries
  rw [List.filterMap_map, List.filterMap_append]
  by_cases hfull : rg.slots.length ≤ log.length
  · have hsplit : List.range' (log.length - min log.length rg.slots.length)
          (min log.length rg.slots.length)
        = List.range' (log.length - rg.slots.length) (rg.slots.length - rg.idx)
          ++ List.range' (log.length - rg.idx) rg.idx := by
      have := List.range'_append_1 (log.length - rg.slots.length) (rg.slots.length - rg.idx)
        rg.idx
      rw [show log.length - rg.slots.length + (rg.slots.length - rg.idx)
        = log.length - rg.idx by omega] at this
      rw [this]
      congr 1 <;> omega
    rw [hsplit, List.filterMap_append]
    congr 1
    · apply filterMap_range'_shift
      intro i hi
      simp only [Function.comp]
      rw [h.value (rg.idx + i) (by omega)]
      unfold expected
      rw [if_neg (by omega), if_pos hfull]
      congr 1
      omega
    · apply filterMap_range'_shift
      intro i hi
      simp only [Function.comp]
      rw [h.value (0 + i) (by omega)]
      unfold expected
      rw [if_pos (by omega)]
      congr 1
      omega
  · have hidx : rg.idx = log.length := b (by omega)
    have hnil : (List.range' rg.idx (rg.slots.length - rg.idx)).filterMap
        (Ring.Value ∘ fun j => ({ slots := rg.slots, idx := j } : Ring ringItem)) = [] := by
      rw [List.filterMap_eq_nil_iff]
      intro j hj
      rw [List.mem_range'_1] at hj
      simp only [Function.comp]
      rw [h.value j (by omega)]
      unfold expected
      rw [if_neg (by omega), if_neg hfull]
    rw [hnil, List.nil_append,
      show log.length - min log.length rg.slots.length = 0 by omega,
      show min log.length rg.slots.length = rg.idx by omega]
    apply filterMap_range'_shift
    intro i hi
    simp only [Function.comp]
    rw [h.value (0 + i) (by omega)]
    unfold expected
    rw [if_pos (by omega)]
    congr 1
    omega

theorem map_getD_range' {β : Type} (l : List β) (d : β) :
    ∀ (k a : Nat), a + k ≤ l.length →
      (List.range' a k).map (fun j => l.getD j d) = (l.drop a).take k := by
  intro k
  induction k with
  | zero => intro a _; simp
  | succ k ih =>
    intro a h
    have ha : a < l.length := by omega
    rw [List.range'_succ, List.map_cons, List.drop_eq_getElem_cons ha, List.take_succ_cons,
      ih (a + 1) (by omega), List.getD_eq_getElem l d ha]

/-- The values met on a forward lap are the values of the slots, in another order. -/
theorem forwardOrder_values_perm {α : Type} (r : Ring α) (hr : r.idx < r.slots.length) :
    ((forwardOrder r).map Ring.Value).Perm r.slots := by
  unfold forwardOrder
  rw [List.map_map, List.map_append]
  have e1 : (List.range' r.idx (r.slots.length - r.idx)).map
      (Ring.Value ∘ fun j => ({ slots := r.slots, idx := j } : Ring α))
      = r.slots.drop r.idx := by
    have := map_getD_range' r.slots none (r.slots.length - r.idx) r.idx (by omega)
    rw [List.take_of_length_le (by simp)] at this
    exact this
  have e2 : (List.range' 0 r.idx).map
      (Ring.Value ∘ fun j => ({ slots := r.slots, idx := j } : Ring α))
      = r.slots.take r.idx := by
    have := map_getD_range' r.slots none r.idx 0 (by omega)
    rw [List.drop_zero] at this
    exact this
  rw [e1, e2]
  have := @List.perm_append_comm _ (r.slots.drop r.idx) (r.slots.take r.idx)
  rw [List.take_append_drop] at this
  exact this

/-! ## Errors of reads at or beyond `position` come from the source -/

theorem Source.Read_ownErrors (s : Source) (size : Nat)
    (h : Source.ownErrors s.pending = true) :
    (∀ e, (s.Read size).err = some e → e.ofSource = true)
    ∧ Source.ownErrors (s.Read size).next.pending = true := by
  unfold Source.Read
  cases hp : s.pending with
  | nil =>
    simp only
    refine ⟨?_, by rw [hp]; rfl⟩
    intro e he
    simp only [Option.some.injEq] at he
    rw [← he]
    rfl
  | cons ev rest =>
    rw [hp] at h
    simp only [Source.ownErrors, List.all_cons, Bool.and_eq_true] at h
    obtain ⟨hev, hrest⟩ := h
    simp only
    by_cases hfit : ev.data.length ≤ size
    · simp only [if_pos hfit]
      refine ⟨?_, hrest⟩
      intro e he
      rw [he] at hev
      exact hev
    · simp only [if_neg hfit]
      refine ⟨?_, ?_⟩
      · intro e he
        simp at he
      · simp only [Source.ownErrors, List.all_cons, Bool.and_eq_true]
        exact ⟨hev, hrest⟩

theorem adapterRead_ownErrors (r : ReaderAt) (size : Nat)
    (h : Source.ownErrors r.Reader.pending = true) :
    (∀ e, (r.Read size).err = some e → e.ofSource = true)
    ∧ Source.ownErrors (r.Read size).r.Reader.pending = true := by
  obtain ⟨-, -, -, hrd, herr, -⟩ := Read_spec r size
  rw [hrd, herr]
  exact Source.Read_ownErrors r.Reader size h

theorem discardReadFrom_ownErrors (fuel : Nat) :
    ∀ (r : ReaderAt) (N written : Int), Source.ownErrors r.Reader.pending = true →
      (∀ e, (discardReadFrom fuel r N written).err = some e → e.ofSource = true)
      ∧ Source.ownErrors (discardReadFrom fuel r N written).r.Reader.pending = true := by
  induction fuel with
  | zero =>
    intro r N written h
    refine ⟨?_, h⟩
    intro e he
    simp only [discardReadFrom, Option.some.injEq] at he
    rw [← he]
    rfl
  | succ fuel ih =>
    intro r N written h
    by_cases hN : N ≤ 0
    · simp only [discardReadFrom, if_pos hN]
      refine ⟨?_, h⟩
      intro e he
      simp at he
    · obtain ⟨h1, h2⟩ :=
        adapterRead_ownErrors r (if (discardChunk : Int) > N then N.toNat else discardChunk) h
      cases he : (r.Read (if (discardChunk : Int) > N then N.toNat else discardChunk)).err with
      | some e =>
        simp only [discardReadFrom, if_neg hN, he]
        refine ⟨?_, h2⟩
        intro e' he'
        by_cases hE : e = Error.EOF
        · simp [hE] at he'
        · simp only [if_neg hE, Option.some.injEq] at he'
          rw [← he']
          exact h1 e he
      | none =>
        simp only [discardReadFrom, if_neg hN, he]
        exact ih _ _ _ h2

theorem CopyN_ownErrors (r : ReaderAt) (n : Int)
    (h : Source.ownErrors r.Reader.pending = true) :
    (∀ e, (CopyN r n).err = some e → e.ofSource = true)
    ∧ Source.ownErrors (CopyN r n).r.Reader.pending = true := by
  obtain ⟨h1, h2⟩ := discardReadFrom_ownErrors (Source.weight r.Reader.pending + 1) r n 0 h
  rw [CopyN_state]
  refine ⟨?_, h2⟩
  intro e he
  unfold CopyN at he
  simp only at he
  split_ifs at he
  all_goals
    first
      | exact h1 e he
      | (simp only [Option.some.injEq] at he; rw [← he]; rfl)

theorem ReadAt_ownErrors (r : ReaderAt) (size : Nat) (off : Int)
    (h : Source.ownErrors r.Reader.pending = true) :
    (r.position ≤ off → ∀ e, (r.ReadAt size off).err = some e → e.ofSource = true)
    ∧ Source.ownErrors (r.ReadAt size off).r.Reader.pending = true := by
  by_cases h1 : off < r.position
  · rw [ReadAt_past r size off h1]
    exact ⟨fun hle => by omega, h⟩
  · by_cases h2 : off = r.position
    · rw [ReadAt_present r size off h2]
      exact ⟨fun _ => (adapterRead_ownErrors r size h).1, (adapterRead_ownErrors r size h).2⟩
    · obtain ⟨h3, h4⟩ := CopyN_ownErrors r (off - r.position) h
      unfold ReaderAt.ReadAt
      rw [if_neg h1, if_neg h2]
      simp only
      cases he : (CopyN r (off - r.position)).err with
      | some e =>
        simp only
        refine ⟨?_, h4⟩
        intro _ e' he'
        simp only [Option.some.injEq] at he'
        rw [← he']
        exact h3 e he
      | none =>
        simp only
        exact ⟨fun _ => (adapterRead_ownErrors _ size h4).1, (adapterRead_ownErrors _ size h4).2⟩

theorem run_ownErrors (ops : List Op) :
    ∀ (r : ReaderAt), Source.ownErrors r.Reader.pending = true →
      Source.ownErrors (r.run ops).Reader.pending = true := by
  induction ops with
  | nil => intro r h; exact h
  | cons op ops ih =>
    intro r h
    apply ih
    cases op with
    | Read size => exact (adapterRead_ownErrors r size h).2
    | ReadAt size off => exact (ReadAt_ownErrors r size off h).2

/-! ## The claims -/

/-- C1 (bounded lookback, success half): for a capacity `C >= 1`, in every state reached from
`New` by calls of `Read` and `ReadAt` with `position > C`, a `ReadAt(b, off)` with
`position - C <= off < position` returns no error, returns `n = min(len(b), position - off)`,
and `b[0..n)` are the bytes delivered at the offsets `off, ..., off + n - 1`. -/
theorem C1_bounded_lookback_success (C : Nat) (hC : 1 ≤ C) (script : List Event)
    (ops : List Op) (size : Nat) (off : Int)
    (hfull : (C : Int) < ((New (Source.fresh script) C).run ops).position)
    (hlo : ((New (Source.fresh script) C).run ops).position - C ≤ off)
    (hhi : off < ((New (Source.fresh script) C).run ops).position) :
    (((New (Source.fresh script) C).run ops).ReadAt size off).err = none
    ∧ ((((New (Source.fresh script) C).run ops).ReadAt size off).n : Int)
        = min (size : Int) (((New (Source.fresh script) C).run ops).position - off)
    ∧ (((New (Source.fresh script) C).run ops).ReadAt size off).b.length
        = (((New (Source.fresh script) C).run ops).ReadAt size off).n
    ∧ (((New (Source.fresh script) C).run ops).ReadAt size off).b
        = (((New (Source.fresh script) C).run ops).Reader.delivered.drop off.toNat).take
            (((New (Source.fresh script) C).run ops).ReadAt size off).n := by
  obtain ⟨hi, -, hrg⟩ := reachable_inv script C ops
  obtain ⟨rg, hb, hlen⟩ := hrg (by omega)
  generalize (New (Source.fresh script) C).run ops = r at *
  have hr := hi.ring rg hb
  have hpos := hi.pos
  rw [ReadAt_history r rg hb size off hhi,
    hr.readFromBuffer size off (by omega), if_neg (by omega), if_neg (by omega),
    if_neg (by omega)]
  simp only [List.length_take, List.length_drop]
  refine ⟨trivial, by omega, by omega, trivial⟩

/-- Witness of C1: capacity 8, "Hello World" read to its end, then `ReadAt` of 4 bytes at 4. -/
theorem C1_bounded_lookback_success_witness :
    ((8 : Int) < ((New (Source.fresh helloScript) (8 : Nat)).run [.Read 4, .Read 100]).position
      ∧ ((New (Source.fresh helloScript) (8 : Nat)).run [.Read 4, .Read 100]).position
          - (8 : Nat) ≤ 4
      ∧ (4 : Int) < ((New (Source.fresh helloScript) (8 : Nat)).run [.Read 4, .Read 100]).position)
    ∧ (((New (Source.fresh helloScript) (8 : Nat)).run [.Read 4, .Read 100]).ReadAt 4 4).err
        = none :=
  ⟨by decide,
    (C1_bounded_lookback_success 8 (by decide) helloScript [.Read 4, .Read 100] 4 4
      (by decide) (by decide) (by decide)).1⟩

/-- C2 (bounded lookback, failure half): for a capacity `C >= 1`, in every reachable state with
`position > C`, a `ReadAt(b, off)` with `off < position - C` returns 0 bytes and the error whose
text is "buffer to small, unable to read from offset " followed by `off`. -/
theorem C2_bounded_lookback_failure (C : Nat) (hC : 1 ≤ C) (script : List Event)
    (ops : List Op) (size : Nat) (off : Int)
    (hfull : (C : Int) < ((New (Source.fresh script) C).run ops).position)
    (hlo : off < ((New (Source.fresh script) C).run ops).position - C) :
    (((New (Source.fresh script) C).run ops).ReadAt size off).n = 0
    ∧ (((New (Source.fresh script) C).run ops).ReadAt size off).b = []
    ∧ ∃ e : Error, (((New (Source.fresh script) C).run ops).ReadAt size off).err = some e
        ∧ e.message = "buffer to small, unable to read from offset " ++ toString off := by
  obtain ⟨hi, -, hrg⟩ := reachable_inv script C ops
  obtain ⟨rg, hb, hlen⟩ := hrg (by omega)
  generalize (New (Source.fresh script) C).run ops = r at *
  have hr := hi.ring rg hb
  have hpos := hi.pos
  rw [ReadAt_history r rg hb size off (by omega),
    hr.readFromBuffer size off (by omega), if_neg (by omega), if_pos (by omega)]
  exact ⟨rfl, rfl, Error.tooSmall off, rfl, rfl⟩

/-- Witness of C2: capacity 8, "Hello World" read to its end, then `ReadAt` at 0. -/
theorem C2_bounded_lookback_failure_witness :
    ((8 : Int) < ((New (Source.fresh helloScript) (8 : Nat)).run [.Read 4, .Read 100]).position
      ∧ (0 : Int) < ((New (Source.fresh helloScript) (8 : Nat)).run [.Read 4, .Read 100]).position
          - (8 : Nat))
    ∧ (((New (Source.fresh helloScript) (8 : Nat)).run [.Read 4, .Read 100]).ReadAt 4 0).n = 0 :=
  ⟨by decide,
    (C2_bounded_lookback_failure 8 (by decide) helloScript [.Read 4, .Read 100] 4 0
      (by decide) (by decide)).1⟩

/-- C3 (replay before any eviction) fails on the code: with capacity 16, after the first 4 bytes
of "Hello World" have been read, `position` is 4 and the byte of offset 3 has been delivered and
recorded, yet `ReadAt` with a 1-byte buffer at offset 3 returns 0 bytes and no error. -/
theorem C3_last_byte_of_unfilled_ring_not_replayed :
    ((New helloSource 16).run [.ReadAt 4 0]).position = 4
    ∧ ((New helloSource 16).run [.ReadAt 4 0]).Reader.delivered[3]? = some 108
    ∧ (((New helloSource 16).run [.ReadAt 4 0]).ReadAt 1 3).n = 0
    ∧ (((New helloSource 16).run [.ReadAt 4 0]).ReadAt 1 3).b = []
    ∧ (((New helloSource 16).run [.ReadAt 4 0]).ReadAt 1 3).err = none := by
  decide

/-- C4 as stated fails: after the three calls of the scenario the fourth call, `ReadAt` with a
4-byte buffer at offset 6, does not return the 4 bytes "Worl". -/
theorem C4_scenario_counterexample :
    ¬ ((((New helloSource 16).run [.ReadAt 4 0, .ReadAt 4 0, .ReadAt 4 4]).ReadAt 4 6).n = 4
      ∧ (((New helloSource 16).run [.ReadAt 4 0, .ReadAt 4 0, .ReadAt 4 4]).ReadAt 4 6).b
          = [87, 111, 114, 108]) := by
  decide

/-- C4, amended: with source "Hello World" and capacity 16, `ReadAt(4 bytes, 0)` returns "Hell"
and leaves `position` 4, `ReadAt(4 bytes, 0)` again returns "Hell" and leaves `position` 4,
`ReadAt(4 bytes, 4)` returns "o Wo" and leaves `position` 8, and then `ReadAt(4 bytes, 6)` returns
without error the 2 bytes "Wo" recorded at offsets 6 and 7 and leaves `position` 8. -/
theorem C4_scenario_amended :
    ((New helloSource 16).ReadAt 4 0).b = [72, 101, 108, 108]
    ∧ ((New helloSource 16).ReadAt 4 0).err = none
    ∧ ((New helloSource 16).run [.ReadAt 4 0]).position = 4
    ∧ (((New helloSource 16).run [.ReadAt 4 0]).ReadAt 4 0).b = [72, 101, 108, 108]
    ∧ (((New helloSource 16).run [.ReadAt 4 0]).ReadAt 4 0).err = none
    ∧ ((New helloSource 16).run [.ReadAt 4 0, .ReadAt 4 0]).position = 4
    ∧ (((New helloSource 16).run [.ReadAt 4 0, .ReadAt 4 0]).ReadAt 4 4).b = [111, 32, 87, 111]
    ∧ (((New helloSource 16).run [.ReadAt 4 0, .ReadAt 4 0]).ReadAt 4 4).err = none
    ∧ ((New helloSource 16).run [.ReadAt 4 0, .ReadAt 4 0, .ReadAt 4 4]).position = 8
    ∧ (((New helloSource 16).run [.ReadAt 4 0, .ReadAt 4 0, .ReadAt 4 4]).ReadAt 4 6).n = 2
    ∧ (((New helloSource 16).run [.ReadAt 4 0, .ReadAt 4 0, .ReadAt 4 4]).ReadAt 4 6).b
        = [87, 111]
    ∧ (((New helloSource 16).run [.ReadAt 4 0, .ReadAt 4 0, .ReadAt 4 4]).ReadAt 4 6).err = none
    ∧ (((New helloSource 16).run [.ReadAt 4 0, .ReadAt 4 0, .ReadAt 4 4]).ReadAt 4 6).r.position
        = 8 := by
  decide

/-- C6 (zero-capacity restriction, failure half): for a reader built with capacity 0, in every
reachable state a `ReadAt(b, off)` with `off < position` returns 0 bytes and the error
"cannot seek back no buffer present", and leaves the adapter, its source included, as it was. -/
theorem C6_no_history_failure (script : List Event) (ops : List Op) (size : Nat) (off : Int)
    (hoff : off < ((New (Source.fresh script) 0).run ops).position) :
    ((New (Source.fresh script) 0).run ops).ReadAt size off
      = { r := (New (Source.fresh script) 0).run ops, n := 0, b := []
          err := some Error.noBuffer }
    ∧ Error.noBuffer.message = "cannot seek back no buffer present" := by
  obtain ⟨-, hb, -⟩ := reachable_inv script 0 ops
  have hb := hb (le_refl 0)
  generalize (New (Source.fresh script) 0).run ops = r at *
  refine ⟨?_, rfl⟩
  unfold ReaderAt.ReadAt
  rw [if_pos hoff]
  simp only [hb]

/-- Witness of C6: capacity 0, 4 bytes of "Hello World" read, then `ReadAt` at offset 0. -/
theorem C6_no_history_failure_witness :
    (0 : Int) < ((New (Source.fresh helloScript) 0).run [.ReadAt 4 0]).position
    ∧ (((New (Source.fresh helloScript) 0).run [.ReadAt 4 0]).ReadAt 4 0).err
        = some Error.noBuffer :=
  ⟨by decide,
    congrArg Result.err (C6_no_history_failure helloScript [.ReadAt 4 0] 4 0 (by decide)).1⟩

/-- C7 (zero-capacity equivalence): over the same source, for every capacity `C`, in particular
every `C >= 1`, and every sequence of calls in which no `ReadAt` asks for an offset below the
`position` at the time of the call, the reader of capacity 0 and the reader of capacity `C`
return on every call the same count, the same bytes and the same error, and have the same
`position` after every call. -/
theorem C7_zero_capacity_equivalence (script : List Event) (C : Int)
    (ops : List Op) (hops : (New (Source.fresh script) 0).neverBack ops = true) :
    (New (Source.fresh script) 0).trace ops = (New (Source.fresh script) C).trace ops :=
  trace_sim ops _ _ rfl rfl hops

/-- Witness of C7: "Hello World", capacities 0 and 16, `ReadAt` at 6, then at 10, then at 20. -/
theorem C7_zero_capacity_equivalence_witness :
    (New (Source.fresh helloScript) 0).neverBack [.ReadAt 4 6, .ReadAt 4 10, .ReadAt 4 20] = true
    ∧ (New (Source.fresh helloScript) 0).trace [.ReadAt 4 6, .ReadAt 4 10, .ReadAt 4 20]
        = (New (Source.fresh helloScript) 16).trace
            [.ReadAt 4 6, .ReadAt 4 10, .ReadAt 4 20] :=
  ⟨by decide,
    C7_zero_capacity_equivalence helloScript 16
      [.ReadAt 4 6, .ReadAt 4 10, .ReadAt 4 20] (by decide)⟩

/-- C8 (sequential equivalence): for every source and every capacity, calls of `ReadAt(b_i, off_i)`
with `off_0 = 0` and `off_(i+1) = off_i + n_i` return on every call the same count, the same bytes
and the same error as calls of `Read(b_i)` in sequence on a fresh reader, of the same or of any
other capacity, over the same source. -/
theorem C8_sequential_equivalence (script : List Event) (C C' : Int) (sizes : List Nat) :
    (New (Source.fresh script) C).seqReadAt 0 sizes
      = (New (Source.fresh script) C').seqRead sizes :=
  (seqReadAt_eq_seqRead sizes _ 0 rfl).trans (seqRead_sim sizes _ _ rfl rfl)

/-- C9 (idempotent replay): for a reader of any capacity, in particular one with history, in
every reachable state, two calls in a row of `ReadAt(b, off)` with the same `off < position` and the same buffer length return the same
count, the same bytes and the same error, and `position` is the same before the first call,
between the calls and after the second call. -/
theorem C9_idempotent_replay (script : List Event) (C : Int) (ops : List Op)
    (size : Nat) (off : Int) (hoff : off < ((New (Source.fresh script) C).run ops).position) :
    ((((New (Source.fresh script) C).run ops).ReadAt size off).r.ReadAt size off).n
        = (((New (Source.fresh script) C).run ops).ReadAt size off).n
    ∧ ((((New (Source.fresh script) C).run ops).ReadAt size off).r.ReadAt size off).b
        = (((New (Source.fresh script) C).run ops).ReadAt size off).b
    ∧ ((((New (Source.fresh script) C).run ops).ReadAt size off).r.ReadAt size off).err
        = (((New (Source.fresh script) C).run ops).ReadAt size off).err
    ∧ (((New (Source.fresh script) C).run ops).ReadAt size off).r.position
        = ((New (Source.fresh script) C).run ops).position
    ∧ ((((New (Source.fresh script) C).run ops).ReadAt size off).r.ReadAt size off).r.position
        = ((New (Source.fresh script) C).run ops).position := by
  generalize (New (Source.fresh script) C).run ops = r at *
  rw [ReadAt_past r size off hoff, ReadAt_past r size off hoff]
  exact ⟨rfl, rfl, rfl, rfl, rfl⟩

/-- Witness of C9: capacity 16, 4 bytes of "Hello World" read, `ReadAt` of 4 bytes at 0 twice. -/
theorem C9_idempotent_replay_witness :
    (0 : Int) < ((New (Source.fresh helloScript) 16).run [.ReadAt 4 0]).position
    ∧ ((((New (Source.fresh helloScript) 16).run [.ReadAt 4 0]).ReadAt 4 0).r.ReadAt 4 0).b
        = (((New (Source.fresh helloScript) 16).run [.ReadAt 4 0]).ReadAt 4 0).b :=
  ⟨by decide,
    (C9_idempotent_replay helloScript 16 [.ReadAt 4 0] 4 0 (by decide)).2.1⟩

/-- C10 (failed skip): in every reachable state, a `ReadAt(b, off)` with `off > position` on a
source that ends or fails before handing out `off - position` further bytes returns 0 bytes and
an error; the adapter and its source are left as the failed skip left them, so no read into `b`
follows; the bytes `xs` delivered before the failure, fewer than `off - position` and a prefix of
the stream, have been recorded the way `Read` records them, `position` has advanced by their
number and is below `off`. -/
theorem C10_failed_skip (C : Int) (script : List Event) (ops : List Op) (size : Nat) (off : Int)
    (hfut : ((New (Source.fresh script) C).run ops).position < off)
    (hav : (Source.avail ((New (Source.fresh script) C).run ops).Reader.pending : Int)
        < off - ((New (Source.fresh script) C).run ops).position) :
    (((New (Source.fresh script) C).run ops).ReadAt size off).n = 0
    ∧ (((New (Source.fresh script) C).run ops).ReadAt size off).b = []
    ∧ (∃ e : Error, (((New (Source.fresh script) C).run ops).ReadAt size off).err = some e)
    ∧ (((New (Source.fresh script) C).run ops).ReadAt size off).r
        = (CopyN ((New (Source.fresh script) C).run ops)
            (off - ((New (Source.fresh script) C).run ops).position)).r
    ∧ (∃ xs : List UInt8,
        Recorded ((New (Source.fresh script) C).run ops)
          (((New (Source.fresh script) C).run ops).ReadAt size off).r xs
        ∧ xs <+: Source.stream ((New (Source.fresh script) C).run ops).Reader.pending
        ∧ (xs.length : Int) < off - ((New (Source.fresh script) C).run ops).position)
    ∧ (((New (Source.fresh script) C).run ops).ReadAt size off).r.position < off := by
  generalize (New (Source.fresh script) C).run ops = r at *
  obtain ⟨⟨e, he⟩, xs, hrec, hlen, hpre⟩ := CopyN_fail r (off - r.position) hav
  have hcall : r.ReadAt size off
      = { r := (CopyN r (off - r.position)).r, n := 0, b := [], err := some e } := by
    unfold ReaderAt.ReadAt
    rw [if_neg (by omega), if_neg (by omega)]
    simp only [he]
  rw [hcall]
  refine ⟨rfl, rfl, ⟨e, rfl⟩, rfl, ⟨xs, hrec, hpre, hlen⟩, ?_⟩
  simp only
  rw [hrec.pos]
  omega

/-- Witness of C10: a fresh reader of capacity 16 over "Hello World", `ReadAt` at offset 12. -/
theorem C10_failed_skip_witness :
    (((New (Source.fresh helloScript) 16).run []).position < 12
      ∧ (Source.avail ((New (Source.fresh helloScript) 16).run []).Reader.pending : Int)
          < 12 - ((New (Source.fresh helloScript) 16).run []).position)
    ∧ (((New (Source.fresh helloScript) 16).run []).ReadAt 4 12).n = 0 :=
  ⟨by decide, (C10_failed_skip 16 helloScript [] 4 12 (by decide) (by decide)).1⟩

/-- C11 (atomic failure of `Read`): whenever the read of the underlying source returns an error,
with 0 bytes or with `n > 0` bytes, `Read` returns the count 0 and that same error, and
`position`, every ring slot and the ring cursor are as before the call. -/
theorem C11_atomic_failure_of_Read (r : ReaderAt) (size : Nat) (e : Error)
    (h : (r.Reader.Read size).err = some e) :
    (r.Read size).n = 0
    ∧ (r.Read size).b = []
    ∧ (r.Read size).err = some e
    ∧ (r.Read size).r.position = r.position
    ∧ (r.Read size).r.buffer = r.buffer := by
  unfold ReaderAt.Read
  simp only [h]
  exact ⟨trivial, trivial, trivial, trivial, trivial⟩

/-- Witness of C11: capacity 4, a source that returns 3 bytes together with `io.EOF`. -/
theorem C11_atomic_failure_of_Read_witness :
    (((New (Source.fresh eofScript) 4).Reader.Read 8).data = [1, 2, 3]
      ∧ ((New (Source.fresh eofScript) 4).Reader.Read 8).err = some Error.EOF)
    ∧ ((New (Source.fresh eofScript) 4).Read 8).n = 0
    ∧ ((New (Source.fresh eofScript) 4).Read 8).r.position = (New (Source.fresh eofScript) 4).position
    ∧ ((New (Source.fresh eofScript) 4).Read 8).r.buffer = (New (Source.fresh eofScript) 4).buffer :=
  ⟨by decide,
    (C11_atomic_failure_of_Read (New (Source.fresh eofScript) 4) 8 Error.EOF (by decide)).1,
    (C11_atomic_failure_of_Read (New (Source.fresh eofScript) 4) 8 Error.EOF (by decide)).2.2.2⟩

/-- C12 (position is the produced-byte count): a reader built by `New` has `position` 0 over a
source that has delivered nothing; every read of the source that returns without error adds its
byte count to the number of delivered bytes and every other read adds nothing; after every
sequence of calls of `Read` and `ReadAt`, `position` is the number of delivered bytes; a `Read`
that succeeds with `n` bytes, the count of the source, increases `position` by `n`, with or
without history; and no call decreases `position`. -/
theorem C12_position_counts_delivered_bytes (script : List Event) (C : Int) (ops : List Op) :
    (New (Source.fresh script) C).position = 0
    ∧ (New (Source.fresh script) C).Reader.delivered.length = 0
    ∧ (∀ (s : Source) (size : Nat),
        (s.Read size).next.delivered.length
          = s.delivered.length
            + (if (s.Read size).err = none then (s.Read size).data.length else 0))
    ∧ ((New (Source.fresh script) C).run ops).position
        = ((New (Source.fresh script) C).run ops).Reader.delivered.length
    ∧ (∀ (r : ReaderAt) (size : Nat), (r.Read size).err = none →
        (r.Read size).n = (r.Reader.Read size).data.length
        ∧ (r.Read size).r.position = r.position + (r.Read size).n)
    ∧ (∀ (r : ReaderAt) (op : Op), r.position ≤ (r.step op).position
        ∧ (r.step op).Position = (r.step op).position) := by
  refine ⟨rfl, rfl, ?_, (reachable_inv script C ops).1.pos, ?_, ?_⟩
  · intro s size
    cases he : (s.Read size).err with
    | none =>
      rw [(Source.Read_ok s size he).2.2.2, List.length_append]
      simp
    | some e =>
      rw [(Source.Read_err s size e he).2]
      simp
  · intro r size he
    obtain ⟨hn, -, hrec, -, herr, hbok, -⟩ := Read_spec r size
    rw [herr] at he
    refine ⟨by rw [hn, hbok he], ?_⟩
    rw [hrec.pos, hn]
  · intro r op
    refine ⟨?_, rfl⟩
    have hstep : ∃ xs : List UInt8, Recorded r (r.step op) xs := by
      cases op with
      | Read size => exact ⟨_, (Read_spec r size).2.2.1⟩
      | ReadAt size off => exact ReadAt_recorded r size off
    obtain ⟨xs, hx⟩ := hstep
    rw [hx.pos]
    omega

/-- C13 (history window invariant): for a capacity `C >= 1`, in every reachable state the ring
has `C` slots and its written slots hold, each once, the entries for the offsets of
`[position - min(position, C), position)`, every entry with the byte delivered at its offset;
so `min(position, C)`, at most `C`, slots are written; a write replaces the cursor slot, and
once the ring is full (`position >= C`) the cursor slot holds the entry of the smallest
offset. -/
theorem C13_history_window (C : Nat) (hC : 1 ≤ C) (script : List Event) (ops : List Op) :
    ∃ rg : Ring ringItem,
      ((New (Source.fresh script) C).run ops).buffer = some rg
      ∧ rg.slots.length = C
      ∧ ((New (Source.fresh script) C).run ops).position
          = ((New (Source.fresh script) C).run ops).Reader.delivered.length
      ∧ (rg.slots.filterMap id).Perm
          (liveEntries C ((New (Source.fresh script) C).run ops).Reader.delivered)
      ∧ (liveEntries C ((New (Source.fresh script) C).run ops).Reader.delivered).map
            (fun item => item.Pos)
          = (List.range'
              (((New (Source.fresh script) C).run ops).Reader.delivered.length
                - min ((New (Source.fresh script) C).run ops).Reader.delivered.length C)
              (min ((New (Source.fresh script) C).run ops).Reader.delivered.length C)).map
            (fun p : Nat => (p : Int))
      ∧ (∀ item ∈ liveEntries C ((New (Source.fresh script) C).run ops).Reader.delivered,
          ((New (Source.fresh script) C).run ops).Reader.delivered[item.Pos.toNat]?
            = some item.Byte)
      ∧ (rg.slots.filterMap id).length
          = min ((New (Source.fresh script) C).run ops).Reader.delivered.length C
      ∧ (rg.slots.filterMap id).length ≤ C
      ∧ (∀ x : UInt8,
          (recordLoop rg ((New (Source.fresh script) C).run ops).position [x]).1.slots
            = rg.slots.set rg.idx
                (some { Pos := ((New (Source.fresh script) C).run ops).position, Byte := x }))
      ∧ (C ≤ ((New (Source.fresh script) C).run ops).Reader.delivered.length →
          rg.Value
            = (liveEntries C ((New (Source.fresh script) C).run ops).Reader.delivered).head?) := by
  obtain ⟨hi, -, hrg⟩ := reachable_inv script C ops
  obtain ⟨rg, hb, hlen⟩ := hrg (by omega)
  generalize (New (Source.fresh script) C).run ops = r at *
  have hr := hi.ring rg hb
  have hn : rg.slots.length = C := by omega
  have hperm : (rg.slots.filterMap id).Perm (liveEntries C r.Reader.delivered) := by
    have h1 := (forwardOrder_values_perm rg hr.idx_lt).filterMap id
    rw [List.filterMap_map] at h1
    have h2 := hr.forward_entries
    rw [hn] at h2
    rw [show (id ∘ Ring.Value : Ring ringItem → Option ringItem) = Ring.Value from rfl, h2] at h1
    exact h1.symm
  have hposs := entries_pos r.Reader.delivered (min r.Reader.delivered.length C)
    (r.Reader.delivered.length - min r.Reader.delivered.length C) (by omega)
  have hcount : (rg.slots.filterMap id).length = min r.Reader.delivered.length C := by
    rw [hperm.length_eq]
    have := congrArg List.length hposs
    simp only [List.length_map, List.length_range'] at this
    exact this
  refine ⟨rg, hb, hn, hi.pos, hperm, hposs, ?_, hcount, by omega, ?_, ?_⟩
  · intro item hitem
    exact entries_byte _ _ item hitem
  · intro x
    rfl
  · intro hfull
    have hv : rg.Value = expected rg.slots.length rg.idx r.Reader.delivered rg.idx :=
      hr.value rg.idx hr.idx_lt
    obtain ⟨m, hm⟩ : ∃ m, C = m + 1 := ⟨C - 1, by omega⟩
    have hlo : r.Reader.delivered.length - C < r.Reader.delivered.length := by omega
    have e1 : entryAt r.Reader.delivered
        (r.Reader.delivered.length - rg.slots.length + (rg.idx - rg.idx))
        = entryAt r.Reader.delivered (r.Reader.delivered.length - C) := by
      congr 1
      omega
    have e2 := entryAt_of_lt r.Reader.delivered (r.Reader.delivered.length - C) hlo
    rw [hv]
    unfold expected liveEntries
    rw [if_neg (by omega), if_pos (by omega), e1,
      show min r.Reader.delivered.length C = m + 1 by omega, List.range'_succ,
      List.filterMap_cons,
      show r.Reader.delivered.length - (m + 1) = r.Reader.delivered.length - C by omega, e2]
    rfl

/-- Witness of C13: capacity 8, "Hello World" read to its end. -/
theorem C13_history_window_witness :
    1 ≤ 8
    ∧ ∃ rg : Ring ringItem,
        ((New (Source.fresh helloScript) (8 : Nat)).run [.Read 100]).buffer = some rg
        ∧ rg.slots.length = 8 :=
  ⟨by decide,
    (C13_history_window 8 (by decide) helloScript [.Read 100]).imp fun _ h => ⟨h.1, h.2.1⟩⟩

/-- C14 (chronological order invariant): for a capacity `C >= 1`, in every reachable state, one
forward lap of `loopForward` from the cursor that passes over the slots never written meets the
entries of the window `[position - min(position, C), position)` in ascending order of their
offsets, each offset one more than the one before. -/
theorem C14_chronological_order (C : Nat) (hC : 1 ≤ C) (script : List Event) (ops : List Op) :
    loopForward ((New (Source.fresh script) C).run ops).buffer collectLive []
        = liveEntries C ((New (Source.fresh script) C).run ops).Reader.delivered
    ∧ (loopForward ((New (Source.fresh script) C).run ops).buffer collectLive []).map
          (fun item => item.Pos)
        = (List.range'
            (((New (Source.fresh script) C).run ops).Reader.delivered.length
              - min ((New (Source.fresh script) C).run ops).Reader.delivered.length C)
            (min ((New (Source.fresh script) C).run ops).Reader.delivered.length C)).map
          (fun p : Nat => (p : Int))
    ∧ ((New (Source.fresh script) C).run ops).position
        = ((New (Source.fresh script) C).run ops).Reader.delivered.length := by
  obtain ⟨hi, -, hrg⟩ := reachable_inv script C ops
  obtain ⟨rg, hb, hlen⟩ := hrg (by omega)
  generalize (New (Source.fresh script) C).run ops = r at *
  have hr := hi.ring rg hb
  have hn : rg.slots.length = C := by omega
  have hlap : loopForward r.buffer collectLive [] = liveEntries C r.Reader.delivered := by
    rw [hb, loopForward_eq_visitUntil collectLive rg hr.idx_lt [], visitUntil_collectLive,
      List.nil_append, hr.forward_entries, hn]
  refine ⟨hlap, ?_, hi.pos⟩
  rw [hlap]
  exact entries_pos r.Reader.delivered (min r.Reader.delivered.length C)
    (r.Reader.delivered.length - min r.Reader.delivered.length C) (by omega)

/-- Witness of C14: capacity 8, "Hello World" read to its end; the lap meets the offsets 3 to
10. -/
theorem C14_chronological_order_witness :
    1 ≤ 8
    ∧ (loopForward ((New (Source.fresh helloScript) (8 : Nat)).run [.Read 100]).buffer
          collectLive []).map (fun item => item.Pos)
        = (List.range'
            (((New (Source.fresh helloScript) (8 : Nat)).run [.Read 100]).Reader.delivered.length
              - min ((New (Source.fresh helloScript) (8 : Nat)).run
                  [.Read 100]).Reader.delivered.length 8)
            (min ((New (Source.fresh helloScript) (8 : Nat)).run
                [.Read 100]).Reader.delivered.length 8)).map
          (fun p : Nat => (p : Int)) :=
  ⟨by decide, (C14_chronological_order 8 (by decide) helloScript [.Read 100]).2.1⟩

/-- C15 (the invalid-history-state error is unreachable): for a reader built by `New` with any
capacity over a source whose errors are error values of its own, after every sequence of calls of
`Read` and `ReadAt` and for every `off >= 0`, `ReadAt(b, off)` does not return the error
"invalid ring buffer item"; and whenever history is present and `position > 0`, the cursor slot
or the slot before it holds an entry. -/
theorem C15_invalid_item_unreachable (C : Int) (script : List Event)
    (hsrc : Source.ownErrors script = true) (ops : List Op) (size : Nat) (off : Int)
    (hoff : 0 ≤ off) :
    (((New (Source.fresh script) C).run ops).ReadAt size off).err ≠ some Error.invalidItem
    ∧ (0 < ((New (Source.fresh script) C).run ops).position →
        ∀ rg, ((New (Source.fresh script) C).run ops).buffer = some rg →
          rg.Value.isSome = true ∨ rg.Prev.Value.isSome = true) := by
  obtain ⟨hi, hnone, hrg⟩ := reachable_inv script C ops
  have hown := run_ownErrors ops (New (Source.fresh script) C) hsrc
  generalize (New (Source.fresh script) C).run ops = r at *
  have hpos := hi.pos
  refine ⟨?_, ?_⟩
  · by_cases h1 : off < r.position
    · by_cases hC : C ≤ 0
      · unfold ReaderAt.ReadAt
        rw [if_pos h1]
        simp [hnone hC]
      · obtain ⟨rg, hb, -⟩ := hrg (by omega)
        rw [ReadAt_history r rg hb size off h1,
          (hi.ring rg hb).readFromBuffer size off (by omega), if_neg (by omega)]
        split_ifs <;> simp
    · intro he
      have := (ReadAt_ownErrors r size off hown).1 (by omega) _ he
      simp [Error.ofSource] at this
  · intro hp rg hb
    have hr := hi.ring rg hb
    have a := hr.idx_lt
    have b := hr.fresh
    by_cases hfull : rg.slots.length ≤ r.Reader.delivered.length
    · left
      have hv : rg.Value = expected rg.slots.length rg.idx r.Reader.delivered rg.idx :=
        hr.value rg.idx a
      rw [hv]
      unfold expected
      rw [if_neg (by omega), if_pos hfull, entryAt_of_lt _ _ (by omega)]
      rfl
    · right
      have hidx : rg.idx = r.Reader.delivered.length := b (by omega)
      have e : rg.Prev = { slots := rg.slots, idx := rg.idx - 1 } := by
        simp only [Ring.Prev]
        rw [if_neg (by omega)]
      rw [e, hr.value (rg.idx - 1) (by omega)]
      unfold expected
      rw [if_pos (by omega), entryAt_of_lt _ _ (by omega)]
      rfl

/-- Witness of C15: capacity 16, 4 bytes of "Hello World" read, `ReadAt` at offset 3. -/
theorem C15_invalid_item_unreachable_witness :
    (Source.ownErrors helloScript = true ∧ (0 : Int) ≤ 3)
    ∧ (((New (Source.fresh helloScript) 16).run [.Read 4]).ReadAt 1 3).err
        ≠ some Error.invalidItem :=
  ⟨by decide,
    (C15_invalid_item_unreachable 16 helloScript (by decide) [.Read 4] 1 3 (by decide)).1⟩

/-- C16 (`loopForward` traversal): on a ring of `n >= 1` elements, for every start element `s` and
every callback `f`, `loopForward(s, f)` returns having called `f` on the elements
`s, s + 1, ...` (indices modulo `n`) in that order, up to and including the first one on which
`f` returns `false`, and on all `n` when there is none; these `n` elements are distinct and
are elements of the one unchanged ring; with a callback that always returns `true` the calls
are exactly those `n` elements; on a `nil` ring `f` is not called. -/
theorem C16_loopForward_traversal {α σ : Type} (s : Ring α) (hs : s.idx < s.slots.length)
    (f : Ring α → Option α → σ → Bool × σ) (st : σ) :
    loopForward (some s) f st = visitUntil f (forwardSlots s) st
    ∧ (forwardSlots s).length = s.slots.length
    ∧ (forwardSlots s).head? = some s
    ∧ (forwardSlots s).Nodup
    ∧ (∀ item ∈ forwardSlots s, item.slots = s.slots ∧ item.idx < s.slots.length)
    ∧ loopForward (some s) noteItem [] = forwardSlots s
    ∧ loopForward none f st = st
    ∧ loopForward (none : Option (Ring α)) noteItem [] = [] := by
  have hord := forwardOrder_eq_forwardSlots s hs
  refine ⟨?_, ?_, ?_, ?_, ?_, ?_, rfl, rfl⟩
  · rw [loopForward_eq_visitUntil f s hs st, hord]
  · simp [forwardSlots]
  · obtain ⟨m, hm⟩ : ∃ m, s.slots.length = m + 1 := ⟨s.slots.length - 1, by omega⟩
    simp only [forwardSlots, hm, List.range_succ_eq_map, List.map_cons, List.head?_cons,
      Nat.add_zero]
    rw [← hm, Nat.mod_eq_of_lt hs]
  · rw [← hord]
    exact nodup_forwardOrder s
  · intro item hitem
    rw [← hord] at hitem
    exact (mem_forwardOrder s hs item).mp hitem
  · rw [loopForward_eq_visitUntil noteItem s hs [], hord, visitUntil_noteItem, List.nil_append]

/-- Witness of C16: the ring of the tests, 10 elements, started at element 5. -/
theorem C16_loopForward_traversal_witness :
    testRing.idx < testRing.slots.length
    ∧ loopForward (some testRing) appendValue []
        = visitUntil appendValue (forwardSlots testRing) []
    ∧ visitUntil appendValue (forwardSlots testRing) [] = [5, 6, 7, 8, 9, 0, 1, 2, 3, 4] :=
  ⟨by decide, (C16_loopForward_traversal testRing (by decide) appendValue []).1, by decide⟩

/-- C17 (`loopBackward` traversal): on a ring of `n >= 1` elements, for every start element `s`
and every callback `f`, `loopBackward(s, f)` returns having called `f` on the elements
`s, s - 1, s - 2, ...` (indices modulo `n`) in that order, up to and including the first one on
which `f` returns `false`, and on all `n` when there is none; these `n` elements are distinct
and are elements of the one unchanged ring; with a callback that always returns `true` the
calls are exactly those `n` elements. -/
theorem C17_loopBackward_traversal {α σ : Type} (s : Ring α) (hs : s.idx < s.slots.length)
    (f : Ring α → Option α → σ → Bool × σ) (st : σ) :
    loopBackward (some s) f st = visitUntil f (backwardSlots s) st
    ∧ (backwardSlots s).length = s.slots.length
    ∧ (backwardSlots s).head? = some s
    ∧ (backwardSlots s).Nodup
    ∧ (∀ item ∈ backwardSlots s, item.slots = s.slots ∧ item.idx < s.slots.length)
    ∧ loopBackward (some s) noteItem [] = backwardSlots s := by
  have hord := backwardOrder_eq_backwardSlots s hs
  refine ⟨?_, ?_, ?_, ?_, ?_, ?_⟩
  · rw [loopBackward_eq_visitUntil f s hs st, hord]
  · simp [backwardSlots]
  · obtain ⟨m, hm⟩ : ∃ m, s.slots.length = m + 1 := ⟨s.slots.length - 1, by omega⟩
    simp only [backwardSlots, hm, List.range_succ_eq_map, List.map_cons, List.head?_cons,
      Nat.sub_zero]
    rw [← hm, Nat.add_mod_right, Nat.mod_eq_of_lt hs]
  · rw [← hord]
    exact nodup_backwardOrder s hs
  · intro item hitem
    rw [← hord] at hitem
    exact (mem_backwardOrder s hs item).mp hitem
  · rw [loopBackward_eq_visitUntil noteItem s hs [], hord, visitUntil_noteItem, List.nil_append]

/-- Witness of C17: the ring of the tests, 10 elements, started at element 5. -/
theorem C17_loopBackward_traversal_witness :
    testRing.idx < testRing.slots.length
    ∧ loopBackward (some testRing) appendValue []
        = visitUntil appendValue (backwardSlots testRing) []
    ∧ visitUntil appendValue (backwardSlots testRing) [] = [5, 4, 3, 2, 1, 0, 9, 8, 7, 6] :=
  ⟨by decide, (C17_loopBackward_traversal testRing (by decide) appendValue []).1, by decide⟩

/-- C18 (replay never continues into the live stream): for a capacity `C >= 1`, in every
reachable state, a `ReadAt(b, off)` with `off < position` leaves the adapter as it was, its
source, `position`, ring slots and cursor included; when it returns no error, `off` is not
negative, `n <= min(len(b), position - off)`, the returned bytes are the bytes delivered at the
offsets `off, ..., off + n - 1`, all below `position`, and a request with
`off + len(b) > position` gets fewer than `len(b)` bytes; `n` is `min(len(b), position - off)`
unless the ring has not been filled and `off = position - 1`. -/
theorem C18_replay_stays_in_history (C : Nat) (hC : 1 ≤ C) (script : List Event)
    (ops : List Op) (size : Nat) (off : Int)
    (hoff : off < ((New (Source.fresh script) C).run ops).position) :
    (((New (Source.fresh script) C).run ops).ReadAt size off).r
        = (New (Source.fresh script) C).run ops
    ∧ ((((New (Source.fresh script) C).run ops).ReadAt size off).err = none →
        0 ≤ off
        ∧ ((((New (Source.fresh script) C).run ops).ReadAt size off).n : Int)
            ≤ min (size : Int) (((New (Source.fresh script) C).run ops).position - off)
        ∧ (((New (Source.fresh script) C).run ops).ReadAt size off).b
            = (((New (Source.fresh script) C).run ops).Reader.delivered.drop off.toNat).take
                (((New (Source.fresh script) C).run ops).ReadAt size off).n
        ∧ (((New (Source.fresh script) C).run ops).ReadAt size off).b.length
            = (((New (Source.fresh script) C).run ops).ReadAt size off).n
        ∧ off + (((New (Source.fresh script) C).run ops).ReadAt size off).n
            ≤ ((New (Source.fresh script) C).run ops).position
        ∧ (((New (Source.fresh script) C).run ops).position < off + size →
            (((New (Source.fresh script) C).run ops).ReadAt size off).n < size)
        ∧ (¬ (((New (Source.fresh script) C).run ops).position < C
              ∧ off = ((New (Source.fresh script) C).run ops).position - 1) →
            ((((New (Source.fresh script) C).run ops).ReadAt size off).n : Int)
              = min (size : Int) (((New (Source.fresh script) C).run ops).position - off))) := by
  obtain ⟨hi, -, hrg⟩ := reachable_inv script C ops
  obtain ⟨rg, hb, hlen⟩ := hrg (by omega)
  generalize (New (Source.fresh script) C).run ops = r at *
  have hr := hi.ring rg hb
  have hpos := hi.pos
  refine ⟨ReadAt_past r size off hoff, ?_⟩
  rw [ReadAt_history r rg hb size off hoff, hr.readFromBuffer size off (by omega)]
  split_ifs with h1 h2 h3
  · intro he
    simp at he
  · intro he
    simp at he
  · intro _
    simp only [List.take_zero, List.length_nil]
    refine ⟨by omega, by omega, trivial, trivial, by omega, by omega, by omega⟩
  · intro _
    simp only [List.length_take, List.length_drop]
    refine ⟨by omega, by omega, trivial, by omega, by omega, by omega, by omega⟩

/-- Witness of C18: capacity 16, 8 bytes of "Hello World" read, `ReadAt` of 4 bytes at 6. -/
theorem C18_replay_stays_in_history_witness :
    (6 : Int) < ((New (Source.fresh helloScript) (16 : Nat)).run [.Read 8]).position
    ∧ (((New (Source.fresh helloScript) (16 : Nat)).run [.Read 8]).ReadAt 4 6).r
        = (New (Source.fresh helloScript) (16 : Nat)).run [.Read 8] :=
  ⟨by decide,
    (C18_replay_stays_in_history 16 (by decide) helloScript [.Read 8] 4 6 (by decide)).1⟩

/-- C19 (negative offsets always fail): for every capacity, in every reachable state, a
`ReadAt(b, off)` with `off < 0` returns 0 bytes and an error and leaves the adapter as it was,
its source, `position` and history included; the error is "cannot seek back no buffer present"
for a capacity of 0 or less, "invalid ring buffer item" when history is present and `position`
is 0, and the history-too-small error carrying `off` otherwise. -/
theorem C19_negative_offsets_fail (C : Int) (script : List Event) (ops : List Op) (size : Nat)
    (off : Int) (hneg : off < 0) :
    ((New (Source.fresh script) C).run ops).ReadAt size off
      = { r := (New (Source.fresh script) C).run ops
          n := 0
          b := []
          err := some (if C ≤ 0 then Error.noBuffer
            else if ((New (Source.fresh script) C).run ops).position = 0 then Error.invalidItem
            else Error.tooSmall off) } := by
  obtain ⟨hi, hnone, hrg⟩ := reachable_inv script C ops
  generalize (New (Source.fresh script) C).run ops = r at *
  have hpos := hi.pos
  by_cases hC : C ≤ 0
  · rw [if_pos hC]
    unfold ReaderAt.ReadAt
    rw [if_pos (by omega)]
    simp only [hnone hC]
  · obtain ⟨rg, hb, hlen⟩ := hrg (by omega)
    have hr := hi.ring rg hb
    rw [if_neg hC, ReadAt_history r rg hb size off (by omega),
      hr.readFromBuffer size off (by omega)]
    by_cases h0 : r.Reader.delivered.length = 0
    · rw [if_pos h0, if_pos (by omega)]
    · rw [if_neg h0, if_pos (by omega), if_neg (by omega)]

/-- Witness of C19: a fresh reader of capacity 16 over "Hello World", `ReadAt` at offset -1. -/
theorem C19_negative_offsets_fail_witness :
    (-1 : Int) < 0
    ∧ (((New (Source.fresh helloScript) 16).run []).ReadAt 4 (-1)).err
        = some Error.invalidItem :=
  ⟨by decide, congrArg Result.err (C19_negative_offsets_fail 16 helloScript [] 4 (-1) (by decide))⟩

end Readerat
